import Mathlib

/-!
# Shortest paths on a grid map: a shallow embedding of `dijstra_gridmap.cc`

The program builds a Boost `adjacency_list` from a fixed edge array, runs
`dijkstra_shortest_paths` from vertex 0, walks the predecessor vector back from
a goal vertex, and writes a Graphviz description of the graph in which the
edges recorded by the predecessor vector are black and the others grey.

The library routines the program calls (the `adjacency_list` constructor,
`edges`, `dijkstra_shortest_paths` with its default `closed_plus` combine,
`std::less` compare and `numeric_limits<int>::max()` infinity) are embedded by
their documented behaviour; the code of `main` is embedded statement by
statement.
-/

namespace DijkstraGridmap

/-! ## Machine integers -/

/-- The value `std::numeric_limits<int>::max()` of the 32-bit `int`: the solver's
"infinite" distance. -/
def INT_MAX : Int := 2147483647

/-- Two's-complement wrap-around of a 32-bit signed result. -/
def wrap32 (x : Int) : Int := (x + 2147483648) % 4294967296 - 2147483648

/-! ## Graph store

`adjacency_list<listS, vecS, directedS, no_property, property<edge_weight_t, int>>`:
a vector of vertices, each holding the list of its out-edges (target, weight)
in insertion order. -/

/-- The graph object: `out[u]` is the out-edge list of vertex `u`. A
`vertex_descriptor` of a `vecS` graph is the index of the vertex, a `Nat`. -/
structure Graph where
  out : List (List (Nat × Int))
deriving DecidableEq

/-- The call `num_vertices(g)`. -/
def num_vertices (g : Graph) : Nat := g.out.length

/-- The out-edge list of `u` (`out_edges(u, g)`), in insertion order. -/
def out_edges (g : Graph) (u : Nat) : List (Nat × Int) := g.out.getD u []

/-- The call `add_edge(u, v, w, g)` on a `vecS` vertex vector: the vector is
resized to hold the larger endpoint when needed, then the edge is appended to
the out-edge list of `u`. -/
def add_edge (u v : Nat) (w : Int) (g : Graph) : Graph :=
  let vs := g.out ++ List.replicate (max u v + 1 - g.out.length) []
  ⟨vs.set u (vs.getD u [] ++ [(v, w)])⟩

/-- The constructor `graph_t g(first, last, ep_iter, n)` once its arguments
are vertex descriptors: `n` vertices without edges, then `add_edge` for every
edge of the array, paired in order with the weights read through `ep_iter`.
The conversion of the program's `int` endpoints and the case of a weight array
shorter than the edge array are embedded by `graph_t` below. -/
def adjacency_list (edge_array : List (Nat × Nat)) (weights : List Int) (n : Nat) : Graph :=
  (edge_array.zip weights).foldl (fun g e => add_edge e.1.1 e.1.2 e.2 g) ⟨List.replicate n []⟩

/-- The conversion of an `int` to a `vertex_descriptor`, an unsigned index: a
non-negative value is kept. A negative value becomes an index of at least
2^63, for which the vertex vector cannot be resized (the new size wraps to
zero or exceeds any vector) and no graph results: the embedding gives no
vertex. -/
def to_vertex (x : Int) : Option Nat := if 0 ≤ x then some x.toNat else none

/-- The conversion of an array of `Edge`, that is `std::pair<int, int>`, to
pairs of vertex descriptors. -/
def to_edges : List (Int × Int) → Option (List (Nat × Nat))
  | [] => some []
  | e :: es =>
    match to_vertex e.1, to_vertex e.2, to_edges es with
    | some u, some v, some r => some ((u, v) :: r)
    | _, _, _ => none

/-- What the declaration of a graph object gives: a graph, or nothing defined. -/
inductive Construction where
  | built (g : Graph)
  | undefined
deriving DecidableEq

/-- The declaration `graph_t g(edge_array, edge_array + num_arcs,
weights_v.data(), num_nodes)` of line 63 on `int` data. It is undefined when
the vertex count or an endpoint is negative, and when the weight array is
shorter than the edge array (the constructor would read past its end);
otherwise it is the constructor on the converted arguments. It tests neither
an endpoint against the vertex count nor the sign of a weight. -/
def graph_t (edge_array : List (Int × Int)) (weights : List Int) (num_nodes : Int) :
    Construction :=
  match to_vertex num_nodes, to_edges edge_array with
  | some n, some ea =>
    if weights.length < ea.length then Construction.undefined
    else Construction.built (adjacency_list ea weights n)
  | _, _ => Construction.undefined

/-- The edges of the vertices `u, u+1, ...` whose out-edge lists are given. -/
def edgesFrom (u : Nat) : List (List (Nat × Int)) → List (Nat × Nat × Int)
  | [] => []
  | l :: rest => l.map (fun e => (u, e.1, e.2)) ++ edgesFrom (u + 1) rest

/-- The range `edges(g)`: every vertex in index order, and for each vertex its
out-edges in list order, as triples (source, target, weight). -/
def edges (g : Graph) : List (Nat × Nat × Int) := edgesFrom 0 g.out

/-! ## The solver: `dijkstra_shortest_paths` -/

/-- The default `distance_combine`, `closed_plus<int>(inf)`: infinity is
absorbing, any other sum is an `int` addition. -/
def closed_plus (a b : Int) : Int :=
  if a = INT_MAX then INT_MAX else if b = INT_MAX then INT_MAX else wrap32 (a + b)

/-- The colours of the breadth-first visit. -/
inductive Color where
  | white
  | gray
  | black
deriving DecidableEq

/-- The state of a solver run: the distance vector `d`, the predecessor
vector `p`, the colour map and the queue `Q` of discovered vertices. -/
structure State where
  d : List Int
  p : List Nat
  color : List Color
  Q : List Nat
deriving DecidableEq

/-- How a library call ends: with a value, with the `negative_edge` exception,
or still running when the step budget of the model is used up. -/
inductive Outcome (α : Type) where
  | ok (a : α)
  | negative_edge
  | out_of_fuel
deriving DecidableEq

/-- The read `d[v]` of the distance vector. -/
def State.dist (st : State) (v : Nat) : Int := st.d.getD v 0

/-- The read `p[v]` of the predecessor vector. -/
def State.pred (st : State) (v : Nat) : Nat := st.p.getD v 0

/-- The read `color[v]` of the colour map. -/
def State.col (st : State) (v : Nat) : Color := st.color.getD v Color.white

/-- Relaxation of the edge `(u, v)` of weight `w` (`relax_target`): the
distance and predecessor of `v` are overwritten only when the candidate
`combine(d[u], w)` compares strictly less than `d[v]`. -/
def relax (u v : Nat) (w : Int) (st : State) : State :=
  let c := closed_plus (st.dist u) w
  if c < st.dist v then { st with d := st.d.set v c, p := st.p.set v u } else st

/-- The body of the out-edge loop for one edge `(u, e.1)` of weight `e.2`,
after the negative-weight test: a white target is relaxed (`tree_edge`),
coloured gray and pushed on the queue; a gray target is relaxed
(`gray_target`; its queue position is keyed by `d`, read on extraction); a
black target is left alone. -/
def visit_edge (u : Nat) (e : Nat × Int) (st : State) : State :=
  match st.col e.1 with
  | Color.white =>
    let st1 := relax u e.1 e.2 st
    { st1 with color := st1.color.set e.1 Color.gray, Q := st1.Q ++ [e.1] }
  | Color.gray => relax u e.1 e.2 st
  | Color.black => st

/-- The loop over the out-edges of the examined vertex `u`; `examine_edge`
throws `negative_edge` when the weight compares less than zero. -/
def out_edge_loop (u : Nat) : List (Nat × Int) → State → Outcome State
  | [], st => Outcome.ok st
  | e :: es, st =>
    if e.2 < 0 then Outcome.negative_edge else out_edge_loop u es (visit_edge u e st)

/-- The call `Q.top()`: a queued vertex of least distance; `none` when the
queue is empty. The library keeps the queue as a heap keyed by `d` and does
not fix which of several vertices of equal least distance comes out first; the
embedding keeps the vertices in push order and takes the first of least
distance. -/
def Q_top (d : List Int) : List Nat → Option Nat
  | [] => none
  | v :: q =>
    match Q_top d q with
    | none => some v
    | some m => if d.getD m 0 < d.getD v 0 then some m else some v

/-- The loop `while (!Q.empty())` of `breadth_first_visit`: take the top of
the queue, pop it, run the out-edge loop, colour the vertex black. The first
argument bounds the number of iterations. -/
def breadth_first_visit (g : Graph) : Nat → State → Outcome State
  | 0, st =>
    match Q_top st.d st.Q with
    | none => Outcome.ok st
    | some _ => Outcome.out_of_fuel
  | fuel + 1, st =>
    match Q_top st.d st.Q with
    | none => Outcome.ok st
    | some u =>
      match out_edge_loop u (out_edges g u) { st with Q := st.Q.erase u } with
      | Outcome.ok st1 =>
        breadth_first_visit g fuel { st1 with color := st1.color.set u Color.black }
      | Outcome.negative_edge => Outcome.negative_edge
      | Outcome.out_of_fuel => Outcome.out_of_fuel

/-- The initialisation of `dijkstra_shortest_paths`: every distance infinite,
every vertex its own predecessor and white; then `d[s] = 0`, and the visit
colours `s` gray and pushes it. -/
def dijkstra_init (g : Graph) (s : Nat) : State :=
  { d := (List.replicate (num_vertices g) INT_MAX).set s 0
    p := List.range (num_vertices g)
    color := (List.replicate (num_vertices g) Color.white).set s Color.gray
    Q := [s] }

/-- The final state of the visit started from `s`, with one iteration allowed
per vertex. -/
def dijkstra_run (g : Graph) (s : Nat) : Outcome State :=
  breadth_first_visit g (num_vertices g) (dijkstra_init g s)

/-- The call of lines 72-74: the distance vector `d` and the predecessor
vector `p` as `dijkstra_shortest_paths(g, s, ...)` leaves them. -/
def solve (g : Graph) (s : Nat) : Outcome (List Int × List Nat) :=
  match dijkstra_run g s with
  | Outcome.ok st => Outcome.ok (st.d, st.p)
  | Outcome.negative_edge => Outcome.negative_edge
  | Outcome.out_of_fuel => Outcome.out_of_fuel

/-! ## Path reconstruction (lines 85-112) -/

/-- How the predecessor walk stands after a bounded number of iterations. -/
inductive WalkResult where
  | finished (path : List Nat)
  | running
  | out_of_range
deriving DecidableEq

/-- The loop `while (current != start) { path.push_back(current); current =
p[current]; }` followed by `path.push_back(start)`. The first argument bounds
the number of times the loop body runs; `running` means the loop has not
exited within the bound, `out_of_range` that `p` was indexed past its end. -/
def walk (p : List Nat) (start : Nat) : Nat → Nat → List Nat → WalkResult
  | fuel, current, path =>
    if current = start then WalkResult.finished (path ++ [start])
    else
      match fuel with
      | 0 => WalkResult.running
      | fuel + 1 =>
        match p[current]? with
        | none => WalkResult.out_of_range
        | some next => walk p start fuel next (path ++ [current])

/-- The path as the program prints it: the stored vector is read through
reverse iterators, so the source comes first and the goal last. -/
def reconstruct (p : List Nat) (start goal : Nat) (fuel : Nat) : WalkResult :=
  match walk p start fuel goal [] with
  | WalkResult.finished path => WalkResult.finished path.reverse
  | r => r

/-! ## Graph export (lines 116-138) -/

/-- The six header lines written before the edge loop. -/
def dot_header : String :=
  "digraph D \x7b\n" ++ "  rankdir=LR\n" ++ "  size=\"4,3\"\n" ++ "  ratio=\"fill\"\n"
    ++ "  edge[style=\"bold\"]\n" ++ "  node[shape=\"circle\"]\n"

/-- The test `p[v] == u` of the edge loop. -/
def tree_edge (p : List Nat) (u v : Nat) : Bool := p.getD v 0 == u

/-- The text written for one edge by the body of the edge loop. -/
def edge_decl (p : List Nat) (e : Nat × Nat × Int) : String :=
  toString e.1 ++ " -> " ++ toString e.2.1 ++ "[label=\"" ++ toString e.2.2 ++ "\""
    ++ (if tree_edge p e.1 e.2.1 then ", color=\"black\"" else ", color=\"grey\"") ++ "]"

/-- The texts written by the edge loop, one per iteration. -/
def dot_edges (g : Graph) (p : List Nat) : List String := (edges g).map (edge_decl p)

/-- The text written by the edge loop: its declarations one after another. -/
def edge_section (g : Graph) (p : List Nat) : String := String.join (dot_edges g p)

/-- The whole content of the exported file. -/
def dot_file (g : Graph) (p : List Nat) : String :=
  dot_header ++ edge_section g p ++ "\x7d"

/-- The number read off a sequence of decimal digits, continuing from `a`. -/
def digits_value (cs : List Char) (a : Nat) : Nat :=
  cs.foldl (fun a c => 10 * a + (c.toNat - 48)) a

/-! ## The data of `main` -/

/-- The six grid cells give six vertices. -/
def num_nodes : Nat := 6

/-- The edge array of line 56. -/
def edge_array : List (Nat × Nat) := [(0, 3), (2, 5), (3, 4), (4, 5), (5, 2)]

/-- The weight vector of line 59: `sizeof(edge_array)` entries (five pairs of
two 4-byte ints), all 1. -/
def weights_v : List Int := List.replicate 40 1

/-- The graph of line 63. -/
def main_graph : Graph := adjacency_list edge_array weights_v num_nodes

/-! ## Vocabulary of the claims -/

/-- `Path g s v k`: there is a directed path from `s` to `v` (a sequence of
edges of `g`, each leaving the vertex the previous one enters, vertices may
repeat) whose edge weights sum to `k`. -/
inductive Path (g : Graph) (s : Nat) : Nat → Int → Prop where
  | nil : Path g s s 0
  | snoc {u v : Nat} {w k : Int} : Path g s u k → (u, v, w) ∈ edges g → Path g s v (k + w)

/-- The vertex `v` is reachable from `s`. -/
def Reachable (g : Graph) (s v : Nat) : Prop := ∃ k, Path g s v k

/-- The weight `k` is the minimum, over all directed paths from `s` to `v`, of
the sum of the edge weights on the path. -/
def IsShortest (g : Graph) (s v : Nat) (k : Int) : Prop :=
  Path g s v k ∧ ∀ k2, Path g s v k2 → k ≤ k2

/-- Every edge endpoint is a vertex of the graph. -/
def WellFormed (g : Graph) : Prop :=
  ∀ u v w, (u, v, w) ∈ edges g → u < num_vertices g ∧ v < num_vertices g

/-- Every edge weight of the graph is non-negative. -/
def NonNegative (g : Graph) : Prop := ∀ e ∈ edges g, 0 ≤ e.2.2

/-- No relaxation candidate reaches the infinite value: the shortest-path
weight of a vertex plus the weight of an edge leaving it stays below
`INT_MAX`. -/
def Unsaturated (g : Graph) (s : Nat) : Prop :=
  ∀ u v w k, (u, v, w) ∈ edges g → IsShortest g s u k → k + w < INT_MAX

/-- `Route g l k`: every consecutive pair of the vertex sequence `l` is joined
by an edge of `g`, and the edges can be chosen with weights summing to `k`. -/
def Route (g : Graph) : List Nat → Int → Prop
  | [], _ => False
  | [_], k => k = 0
  | u :: v :: rest, k => ∃ w, (u, v, w) ∈ edges g ∧ Route g (v :: rest) (k - w)

/-- `Chain p s v l`: `l` lists the vertices `v, p[v], p[p[v]], ...` down to the
first occurrence of `s`. -/
inductive Chain (p : List Nat) (s : Nat) : Nat → List Nat → Prop where
  | base : Chain p s s [s]
  | step {u v : Nat} {l : List Nat} :
      v ≠ s → p[v]? = some u → Chain p s u l → Chain p s v (v :: l)

/-! ## The invariant of the visit -/

/-- The number of black vertices. -/
def State.blackCount (st : State) : Nat := st.color.count Color.black

/-- The facts that hold of a solver state throughout a run from `s`; `fin`
says which vertices have been taken from the queue, `T` counts them, and
`rank` numbers them in the order they were taken. -/
structure Core (g : Graph) (s : Nat) (st : State) (fin : Nat → Prop) (T : Nat)
    (rank : Nat → Nat) : Prop where
  len_d : st.d.length = num_vertices g
  len_p : st.p.length = num_vertices g
  len_c : st.color.length = num_vertices g
  q_nodup : st.Q.Nodup
  q_mem : ∀ v, v ∈ st.Q ↔ (st.col v = Color.gray ∧ ¬ fin v)
  fin_seen : ∀ v, fin v → st.col v ≠ Color.white
  d_nonneg : ∀ v, 0 ≤ st.dist v
  white : ∀ v, v < num_vertices g → st.col v = Color.white →
    st.dist v = INT_MAX ∧ st.pred v = v
  seen : ∀ v, st.col v ≠ Color.white → st.dist v < INT_MAX ∧ Path g s v (st.dist v)
  src : st.col s ≠ Color.white ∧ st.dist s = 0 ∧ st.pred s = s
  tree : ∀ v, st.col v ≠ Color.white → v ≠ s →
    fin (st.pred v) ∧ (∃ w, (st.pred v, v, w) ∈ edges g ∧ st.dist v = st.dist (st.pred v) + w)
      ∧ rank (st.pred v) < rank v
  lower : ∀ u, fin u → ∀ k, Path g s u k → st.dist u ≤ k
  order : ∀ u v, fin u → v ∈ st.Q → st.dist u ≤ st.dist v
  closed : ∀ u v w, st.col u = Color.black → (u, v, w) ∈ edges g → st.dist v ≤ st.dist u + w
  rank_fin : ∀ b, fin b → rank b < T
  rank_open : ∀ v, ¬ fin v → T ≤ rank v

/-- The invariant between two iterations of the `while` loop. -/
def Inv (g : Graph) (s : Nat) (st : State) : Prop :=
  ∃ rank, Core g s st (fun x => st.col x = Color.black) st.blackCount rank

/-- The invariant inside the out-edge loop of the examined vertex `u`, after
the edges `done` have been visited. -/
def Mid (g : Graph) (s : Nat) (st : State) (u : Nat) (done : List (Nat × Int)) : Prop :=
  ∃ rank, Core g s st (fun x => st.col x = Color.black ∨ x = u) (st.blackCount + 1) rank
    ∧ st.col u = Color.gray
    ∧ (∀ e ∈ done, st.dist e.1 ≤ st.dist u + e.2)
    ∧ (∀ b, st.col b = Color.black → st.dist b ≤ st.dist u)

/-! ## The visit without assumptions on the weights -/

/-- The facts about colours and the queue that hold of a solver state for
every graph, whatever its weights; `fin` says which vertices have been taken
from the queue. -/
structure Visit (g : Graph) (s : Nat) (st : State) (fin : Nat → Prop) : Prop where
  len_d : st.d.length = num_vertices g
  len_p : st.p.length = num_vertices g
  len_c : st.color.length = num_vertices g
  q_nodup : st.Q.Nodup
  q_mem : ∀ v, v ∈ st.Q ↔ (st.col v = Color.gray ∧ ¬ fin v)
  src : st.col s ≠ Color.white
  white : ∀ v, v < num_vertices g → st.col v = Color.white →
    st.dist v = INT_MAX ∧ st.pred v = v
  seen : ∀ v, st.col v ≠ Color.white → Reachable g s v
  closed : ∀ u v w, st.col u = Color.black → (u, v, w) ∈ edges g →
    st.col v ≠ Color.white ∧ 0 ≤ w

/-- The colour invariant between two iterations of the `while` loop. -/
def VisitInv (g : Graph) (s : Nat) (st : State) : Prop :=
  Visit g s st (fun x => st.col x = Color.black)

/-- The colour invariant inside the out-edge loop of the examined vertex `u`,
after the edges `done` have been visited. -/
def VisitMid (g : Graph) (s : Nat) (st : State) (u : Nat) (done : List (Nat × Int)) : Prop :=
  Visit g s st (fun x => st.col x = Color.black ∨ x = u)
    ∧ st.col u = Color.gray
    ∧ (∀ e ∈ done, st.col e.1 ≠ Color.white ∧ 0 ≤ e.2)

/-! ## The visit as a step relation -/

/-- A point of a solver run: the state and, inside the out-edge loop, the
examined vertex with its out-edges still to be visited. -/
structure Config where
  st : State
  cur : Option (Nat × List (Nat × Int))

/-- One step of the visit: taking the top of the queue and popping it
(`examine`), the body of the out-edge loop on the next out-edge, which passes
the negative-weight test (`edge`), or colouring the examined vertex black when
its out-edges are exhausted (`finish`). -/
inductive Step (g : Graph) : Config → Config → Prop where
  | examine {st : State} {u : Nat} : Q_top st.d st.Q = some u →
      Step g ⟨st, none⟩ ⟨{ st with Q := st.Q.erase u }, some (u, out_edges g u)⟩
  | edge {st : State} {u : Nat} {e : Nat × Int} {es : List (Nat × Int)} : ¬ e.2 < 0 →
      Step g ⟨st, some (u, e :: es)⟩ ⟨visit_edge u e st, some (u, es)⟩
  | finish {st : State} {u : Nat} :
      Step g ⟨st, some (u, [])⟩ ⟨{ st with color := st.color.set u Color.black }, none⟩

/-- Any number of steps of the visit. -/
def Steps (g : Graph) : Config → Config → Prop := Relation.ReflTransGen (Step g)

/-- The configuration in which the visit starts. -/
def start_config (g : Graph) (s : Nat) : Config := ⟨dijkstra_init g s, none⟩

/-- The vertex `u` has been taken from the queue: it is black, or it is the
vertex whose out-edges are being visited. -/
def Finalized (c : Config) (u : Nat) : Prop :=
  c.st.col u = Color.black ∨ ∃ es, c.cur = some (u, es)

/-- The invariant of the step relation: the invariant of the `while` loop
between iterations, and inside the out-edge loop the invariant of that loop
for the out-edges already visited. -/
def ConfigInv (g : Graph) (s : Nat) (c : Config) : Prop :=
  match c.cur with
  | none => Inv g s c.st
  | some (u, es) =>
    ∃ done, Mid g s c.st u done ∧ (∀ e ∈ es, (u, e.1, e.2) ∈ edges g)
      ∧ (∀ e ∈ out_edges g u, e ∈ done ∨ e ∈ es)

/-- Every edge weight fits the 32-bit `int` from above. -/
def WeightsFit (g : Graph) : Prop := ∀ e ∈ edges g, e.2.2 ≤ INT_MAX

/-- What holds of the source throughout a run: its distance is 0 and it is its
own predecessor; it is black, or alone in the queue before the first
iteration, or the vertex being examined. -/
def SourceInv (g : Graph) (s : Nat) (c : Config) : Prop :=
  c.st.dist s = 0 ∧ c.st.pred s = s ∧ s < c.st.color.length ∧
  (c.st.col s = Color.black ∨ (c.cur = none ∧ c.st.Q = [s])
    ∨ ∃ es, c.cur = some (s, es) ∧ ∀ e ∈ es, (s, e.1, e.2) ∈ edges g)

/-! # Proofs -/

/-! ## Lists as vectors -/

theorem getD_set_self {α : Type} (l : List α) (i : Nat) (a x : α) (h : i < l.length) :
    (l.set i a).getD i x = a := by
  simp [List.getD_eq_getElem?_getD, List.getElem?_set, h]

theorem getD_set_ne {α : Type} (l : List α) (i j : Nat) (a x : α) (h : i ≠ j) :
    (l.set i a).getD j x = l.getD j x := by
  simp [List.getD_eq_getElem?_getD, List.getElem?_set, h]

theorem getD_of_le {α : Type} (l : List α) (i : Nat) (x : α) (h : l.length ≤ i) :
    l.getD i x = x := by
  simp [List.getD_eq_getElem?_getD, List.getElem?_eq_none h]

/-! ## The graph store -/

theorem mem_edgesFrom (ls : List (List (Nat × Int))) (k u v : Nat) (w : Int) :
    (u, v, w) ∈ edgesFrom k ls ↔ k ≤ u ∧ (v, w) ∈ ls.getD (u - k) [] := by
  induction ls generalizing k with
  | nil => simp [edgesFrom]
  | cons l rest ih =>
    simp only [edgesFrom, List.mem_append, List.mem_map, ih]
    constructor
    · rintro (⟨e, he, heq⟩ | ⟨hk, hm⟩)
      · obtain ⟨h1, h2, h3⟩ := Prod.mk.inj_iff.mp heq |>.imp id Prod.mk.inj_iff.mp
        subst h1
        refine ⟨le_refl _, ?_⟩
        have : e = (v, w) := by cases e; simp_all
        simpa [this] using he
      · refine ⟨by omega, ?_⟩
        have : u - k = (u - (k + 1)) + 1 := by omega
        rw [this]
        simpa using hm
    · rintro ⟨hk, hm⟩
      by_cases hu : u = k
      · subst hu
        left
        refine ⟨(v, w), ?_, rfl⟩
        simpa using hm
      · right
        refine ⟨by omega, ?_⟩
        have : u - k = (u - (k + 1)) + 1 := by omega
        rw [this] at hm
        simpa using hm

theorem mem_edges (g : Graph) (u v : Nat) (w : Int) :
    (u, v, w) ∈ edges g ↔ (v, w) ∈ out_edges g u := by
  simp [edges, out_edges, mem_edgesFrom]

theorem getD_append_replicate {α : Type} (l : List α) (k i : Nat) (x : α) :
    (l ++ List.replicate k x).getD i x = l.getD i x := by
  simp only [List.getD_eq_getElem?_getD]
  by_cases h : i < l.length
  · rw [List.getElem?_append_left h]
  · rw [List.getElem?_append_right (by omega), List.getElem?_eq_none (by omega : l.length ≤ i)]
    simp [List.getElem?_replicate]
    split <;> simp

theorem num_vertices_add_edge (u v : Nat) (w : Int) (g : Graph) :
    num_vertices (add_edge u v w g) = max (num_vertices g) (max u v + 1) := by
  simp only [num_vertices, add_edge, List.length_set, List.length_append, List.length_replicate]
  omega

theorem out_edges_add_edge (u v : Nat) (w : Int) (g : Graph) (x : Nat) :
    out_edges (add_edge u v w g) x =
      if x = u then out_edges g u ++ [(v, w)] else out_edges g x := by
  simp only [out_edges, add_edge]
  by_cases h : x = u
  · subst h
    rw [getD_set_self, getD_append_replicate, if_pos rfl]
    simp only [List.length_append, List.length_replicate]
    omega
  · rw [getD_set_ne _ _ _ _ _ (Ne.symm h), getD_append_replicate, if_neg h]

theorem out_edges_foldl (es : List ((Nat × Nat) × Int)) (g : Graph) (x : Nat) :
    out_edges (es.foldl (fun g e => add_edge e.1.1 e.1.2 e.2 g) g) x =
      out_edges g x ++ (es.filter (fun e => e.1.1 = x)).map (fun e => (e.1.2, e.2)) := by
  induction es generalizing g with
  | nil => simp
  | cons e es ih =>
    rw [List.foldl_cons, ih, out_edges_add_edge]
    by_cases h : e.1.1 = x
    · subst h
      simp [List.filter_cons]
    · have h2 : ¬ x = e.1.1 := fun h3 => h h3.symm
      simp [List.filter_cons, h, h2]

theorem out_edges_empty (n x : Nat) : out_edges ⟨List.replicate n []⟩ x = [] := by
  simp only [out_edges, List.getD_eq_getElem?_getD, List.getElem?_replicate]
  split <;> simp

/-- The out-edges of a vertex of a constructed graph are the edges of the array
that leave it, in array order. -/
theorem out_edges_adjacency_list (ea : List (Nat × Nat)) (ws : List Int) (n x : Nat) :
    out_edges (adjacency_list ea ws n) x =
      ((ea.zip ws).filter (fun e => e.1.1 = x)).map (fun e => (e.1.2, e.2)) := by
  rw [adjacency_list, out_edges_foldl, out_edges_empty, List.nil_append]

theorem mem_edges_adjacency_list (ea : List (Nat × Nat)) (ws : List Int) (n u v : Nat) (w : Int) :
    (u, v, w) ∈ edges (adjacency_list ea ws n) ↔ ((u, v), w) ∈ ea.zip ws := by
  rw [mem_edges, out_edges_adjacency_list]
  simp only [List.mem_map, List.mem_filter, decide_eq_true_eq]
  constructor
  · rintro ⟨⟨⟨a, b⟩, c⟩, ⟨hm, h1⟩, h2⟩
    simp only [Prod.mk.injEq] at h2
    obtain ⟨rfl, rfl⟩ := h2
    simp only at h1
    subst h1
    exact hm
  · intro h
    exact ⟨((u, v), w), ⟨h, rfl⟩, rfl⟩

theorem num_vertices_foldl_ge (es : List ((Nat × Nat) × Int)) (g : Graph) :
    num_vertices g ≤ num_vertices (es.foldl (fun g e => add_edge e.1.1 e.1.2 e.2 g) g)
    ∧ ∀ e ∈ es, e.1.1 < num_vertices (es.foldl (fun g e => add_edge e.1.1 e.1.2 e.2 g) g)
        ∧ e.1.2 < num_vertices (es.foldl (fun g e => add_edge e.1.1 e.1.2 e.2 g) g) := by
  induction es generalizing g with
  | nil => simp
  | cons e es ih =>
    rw [List.foldl_cons]
    have h := ih (add_edge e.1.1 e.1.2 e.2 g)
    rw [num_vertices_add_edge] at h
    refine ⟨by omega, ?_⟩
    intro e2 he2
    rcases List.mem_cons.mp he2 with rfl | hm
    · omega
    · exact h.2 e2 hm

/-- A constructed graph holds every endpoint of its edges. -/
theorem wellFormed_adjacency_list (ea : List (Nat × Nat)) (ws : List Int) (n : Nat) :
    WellFormed (adjacency_list ea ws n) := by
  intro u v w h
  rw [mem_edges_adjacency_list] at h
  exact (num_vertices_foldl_ge (ea.zip ws) ⟨List.replicate n []⟩).2 _ h

theorem num_vertices_adjacency_list_ge (ea : List (Nat × Nat)) (ws : List Int) (n : Nat) :
    n ≤ num_vertices (adjacency_list ea ws n) := by
  have h := (num_vertices_foldl_ge (ea.zip ws) ⟨List.replicate n []⟩).1
  simpa [num_vertices] using h

theorem count_set_of_ne {α : Type} [DecidableEq α] (l : List α) (i : Nat) (a b : α)
    (h1 : l.getD i b ≠ b) (h2 : a ≠ b) : (l.set i a).count b = l.count b := by
  induction l generalizing i with
  | nil => simp
  | cons x xs ih =>
    cases i with
    | zero =>
      simp only [List.getD_cons_zero] at h1
      simp [List.count_cons, h1, h2]
    | succ i =>
      simp only [List.getD_cons_succ] at h1
      simp [List.count_cons, ih i h1]

theorem count_set_new {α : Type} [DecidableEq α] (l : List α) (i : Nat) (a : α)
    (h0 : i < l.length) (h1 : l.getD i a ≠ a) : (l.set i a).count a = l.count a + 1 := by
  induction l generalizing i with
  | nil => simp at h0
  | cons x xs ih =>
    cases i with
    | zero =>
      simp only [List.getD_cons_zero] at h1
      simp [List.count_cons, h1]
    | succ i =>
      simp only [List.getD_cons_succ] at h1
      simp only [List.length_cons, Nat.add_lt_add_iff_right] at h0
      simp only [List.set_cons_succ, List.count_cons, ih i h0 h1]
      omega

theorem col_ne_white_lt (st : State) (v : Nat) (h : st.col v ≠ Color.white) :
    v < st.color.length := by
  by_contra hlt
  exact h (getD_of_le _ _ _ (by omega))

/-- The effect of relaxing one edge. -/
theorem relax_spec (u v : Nat) (w : Int) (st : State) (hv : v < st.d.length)
    (hp : v < st.p.length) :
    (relax u v w st).color = st.color ∧ (relax u v w st).Q = st.Q
    ∧ (relax u v w st).d.length = st.d.length ∧ (relax u v w st).p.length = st.p.length
    ∧ (∀ x, (relax u v w st).dist x =
        if x = v ∧ closed_plus (st.dist u) w < st.dist v then closed_plus (st.dist u) w
        else st.dist x)
    ∧ (∀ x, (relax u v w st).pred x =
        if x = v ∧ closed_plus (st.dist u) w < st.dist v then u else st.pred x) := by
  unfold relax
  by_cases h : closed_plus (st.dist u) w < st.dist v
  · simp only [h, if_true, and_true, List.length_set, true_and]
    constructor
    · intro x
      by_cases hx : x = v
      · subst hx
        simp only [true_and, h, if_true]
        exact getD_set_self _ _ _ _ hv
      · simp only [hx, if_false, State.dist]
        exact getD_set_ne _ _ _ _ _ (Ne.symm hx)
    · intro x
      by_cases hx : x = v
      · subst hx
        simp only [true_and, h, if_true]
        exact getD_set_self _ _ _ _ hp
      · simp only [hx, if_false, State.pred]
        exact getD_set_ne _ _ _ _ _ (Ne.symm hx)
  · simp [h]

/-- The effect of the loop body on one out-edge. -/
theorem visit_edge_spec (u v : Nat) (w : Int) (st : State) (hv : v < st.d.length)
    (hp : v < st.p.length) (hc : v < st.color.length) :
    (visit_edge u (v, w) st).d.length = st.d.length
    ∧ (visit_edge u (v, w) st).p.length = st.p.length
    ∧ (visit_edge u (v, w) st).color.length = st.color.length
    ∧ (visit_edge u (v, w) st).blackCount = st.blackCount
    ∧ (visit_edge u (v, w) st).Q = (if st.col v = Color.white then st.Q ++ [v] else st.Q)
    ∧ (∀ x, (visit_edge u (v, w) st).col x =
        if x = v ∧ st.col v = Color.white then Color.gray else st.col x)
    ∧ (∀ x, (visit_edge u (v, w) st).dist x =
        if x = v ∧ st.col v ≠ Color.black ∧ closed_plus (st.dist u) w < st.dist v
        then closed_plus (st.dist u) w else st.dist x)
    ∧ (∀ x, (visit_edge u (v, w) st).pred x =
        if x = v ∧ st.col v ≠ Color.black ∧ closed_plus (st.dist u) w < st.dist v
        then u else st.pred x) := by
  obtain ⟨r1, r2, r3, r4, r5, r6⟩ := relax_spec u v w st hv hp
  unfold visit_edge
  cases hcol : st.col v with
  | white =>
    simp only [List.length_set, r3, r4, r1, r2, if_true, true_and, and_true, ne_eq,
      not_false_eq_true, reduceCtorEq]
    refine ⟨?_, ?_, r5, r6⟩
    · simp only [State.blackCount]
      refine count_set_of_ne _ _ _ _ ?_ (by simp)
      have h1 : st.color.getD v Color.black = st.col v := by
        simp [State.col, List.getD_eq_getElem?_getD, List.getElem?_eq_getElem hc]
      rw [h1, hcol]
      simp
    · intro x
      by_cases hx : x = v
      · subst hx
        simp only [State.col, r1, true_and, if_true]
        exact getD_set_self _ _ _ _ hc
      · simp only [hx, false_and, if_false, State.col, r1]
        exact getD_set_ne _ _ _ _ _ (Ne.symm hx)
  | gray =>
    simp only [r3, r4, r1, r2, true_and, and_true, ne_eq,
      not_false_eq_true, reduceCtorEq, if_false, and_false]
    refine ⟨by simp [State.blackCount, r1], ?_, r5, r6⟩
    intro x
    simp [State.col, r1]
  | black =>
    simp

theorem wrap32_id (x : Int) (h0 : -2147483648 ≤ x) (h1 : x < 2147483648) : wrap32 x = x := by
  unfold wrap32
  omega

theorem closed_plus_eq (a b : Int) (ha : 0 ≤ a) (hb : 0 ≤ b) (h : a + b < INT_MAX) :
    closed_plus a b = a + b := by
  unfold closed_plus
  unfold INT_MAX at *
  rw [if_neg (by omega), if_neg (by omega), wrap32_id _ (by omega) (by omega)]

/-- The loop body on one out-edge of the examined vertex keeps the invariant. -/
theorem mid_visit_edge (g : Graph) (s : Nat) (st : State) (u v : Nat) (w : Int)
    (done : List (Nat × Int)) (hwf : WellFormed g) (hun : Unsaturated g s)
    (hm : Mid g s st u done) (he : (u, v, w) ∈ edges g) (hw : 0 ≤ w) :
    Mid g s (visit_edge u (v, w) st) u ((v, w) :: done) := by
  obtain ⟨rank, C, hu, hdone, hge⟩ := hm
  have hvN : v < num_vertices g := (hwf u v w he).2
  obtain ⟨s1, s2, s3, s4, s5, s6, s7, s8⟩ := visit_edge_spec u v w st
    (by rw [C.len_d]; exact hvN) (by rw [C.len_p]; exact hvN) (by rw [C.len_c]; exact hvN)
  have hu_seen := C.seen u (by rw [hu]; simp)
  have hshort : IsShortest g s u (st.dist u) := ⟨hu_seen.2, C.lower u (Or.inr rfl)⟩
  have hc_lt : st.dist u + w < INT_MAX := hun u v w _ he hshort
  have hd0 := C.d_nonneg u
  have hc : closed_plus (st.dist u) w = st.dist u + w := closed_plus_eq _ _ hd0 hw hc_lt
  rw [hc] at s7 s8
  have hWR : st.col v = Color.white → st.col v ≠ Color.black ∧ st.dist u + w < st.dist v := by
    intro h
    refine ⟨by rw [h]; simp, ?_⟩
    rw [(C.white v hvN h).1]
    exact hc_lt
  have hRu : (st.col v ≠ Color.black ∧ st.dist u + w < st.dist v) → v ≠ u := by
    rintro ⟨_, h⟩ rfl
    omega
  have hRs : (st.col v ≠ Color.black ∧ st.dist u + w < st.dist v) → v ≠ s := by
    rintro ⟨_, h⟩ rfl
    rw [C.src.2.1] at h
    omega
  have hRfin : (st.col v ≠ Color.black ∧ st.dist u + w < st.dist v) →
      ¬ (st.col v = Color.black ∨ v = u) := by
    intro h
    rintro (h1 | h1)
    · exact h.1 h1
    · exact hRu h h1
  have hblack : ∀ x, (visit_edge u (v, w) st).col x = Color.black ↔ st.col x = Color.black := by
    intro x
    rw [s6]
    by_cases h : x = v ∧ st.col v = Color.white
    · rw [if_pos h, h.1, h.2]; simp
    · rw [if_neg h]
  have hfin : (fun x => (visit_edge u (v, w) st).col x = Color.black ∨ x = u)
      = (fun x => st.col x = Color.black ∨ x = u) := by
    funext x
    rw [hblack]
  have hdle : ∀ x, (visit_edge u (v, w) st).dist x ≤ st.dist x := by
    intro x
    rw [s7]
    by_cases h : x = v ∧ st.col v ≠ Color.black ∧ st.dist u + w < st.dist v
    · rw [if_pos h, h.1]; omega
    · rw [if_neg h]
  have hdfin : ∀ x, (st.col x = Color.black ∨ x = u) →
      (visit_edge u (v, w) st).dist x = st.dist x := by
    intro x hx
    rw [s7, if_neg]
    rintro ⟨rfl, h⟩
    exact hRfin h hx
  have hfle : ∀ x, (st.col x = Color.black ∨ x = u) → st.dist x ≤ st.dist u := by
    rintro x (hx | rfl)
    · exact hge x hx
    · exact le_refl _
  refine ⟨rank, ?_, ?_, ?_, ?_⟩
  · rw [hfin, s4]
    constructor
    · rw [s1, C.len_d]
    · rw [s2, C.len_p]
    · rw [s3, C.len_c]
    · -- q_nodup
      rw [s5]
      by_cases h : st.col v = Color.white
      · rw [if_pos h]
        refine List.Nodup.append C.q_nodup (List.nodup_singleton v) ?_
        intro x hx hx2
        rw [List.mem_singleton] at hx2
        subst hx2
        have := ((C.q_mem x).1 hx).1
        rw [h] at this
        exact absurd this (by simp)
      · rw [if_neg h]; exact C.q_nodup
    · -- q_mem
      intro x
      rw [s5, s6]
      by_cases h : st.col v = Color.white
      · rw [if_pos h, List.mem_append, List.mem_singleton, C.q_mem]
        by_cases hx : x = v
        · subst hx
          have h3 := hRfin (hWR h)
          simp only [true_and, h, if_true, or_true, true_iff]
          rw [h] at h3
          exact h3
        · simp [hx]
      · rw [if_neg h, C.q_mem, if_neg (fun h2 => h h2.2)]
    · -- fin_seen
      intro x hx
      rw [s6]
      by_cases h : x = v ∧ st.col v = Color.white
      · rw [if_pos h]; simp
      · rw [if_neg h]; exact C.fin_seen x hx
    · -- d_nonneg
      intro x
      rw [s7]
      by_cases h : x = v ∧ st.col v ≠ Color.black ∧ st.dist u + w < st.dist v
      · rw [if_pos h]; omega
      · rw [if_neg h]; exact C.d_nonneg x
    · -- white
      intro x hxN hx
      rw [s6] at hx
      by_cases h : x = v ∧ st.col v = Color.white
      · rw [if_pos h] at hx; exact absurd hx (by simp)
      · rw [if_neg h] at hx
        have hxv : x ≠ v := fun h2 => h ⟨h2, h2 ▸ hx⟩
        rw [s7, s8, if_neg (fun h2 => hxv h2.1), if_neg (fun h2 => hxv h2.1)]
        exact C.white x hxN hx
    · -- seen
      intro x hx
      rw [s7]
      by_cases h : x = v ∧ st.col v ≠ Color.black ∧ st.dist u + w < st.dist v
      · rw [if_pos h, h.1]
        exact ⟨hc_lt, Path.snoc hu_seen.2 he⟩
      · rw [if_neg h]
        refine C.seen x ?_
        rw [s6] at hx
        by_cases h2 : x = v ∧ st.col v = Color.white
        · exact absurd ⟨h2.1, hWR h2.2⟩ h
        · rw [if_neg h2] at hx; exact hx
    · -- src
      refine ⟨?_, ?_, ?_⟩
      · rw [s6]
        by_cases h : s = v ∧ st.col v = Color.white
        · rw [if_pos h]; simp
        · rw [if_neg h]; exact C.src.1
      · rw [s7, if_neg (fun h => hRs h.2 h.1.symm)]; exact C.src.2.1
      · rw [s8, if_neg (fun h => hRs h.2 h.1.symm)]; exact C.src.2.2
    · -- tree
      intro x hx hxs
      rw [s8]
      by_cases h : x = v ∧ st.col v ≠ Color.black ∧ st.dist u + w < st.dist v
      · rw [if_pos h]
        obtain ⟨rfl, hR⟩ := h
        refine ⟨Or.inr rfl, ⟨w, he, ?_⟩, ?_⟩
        · rw [hdfin u (Or.inr rfl), s7, if_pos ⟨rfl, hR⟩]
        · have h1 := C.rank_fin u (Or.inr rfl)
          have h2 := C.rank_open x (hRfin hR)
          omega
      · rw [if_neg h]
        have hx2 : st.col x ≠ Color.white := by
          rw [s6] at hx
          by_cases h2 : x = v ∧ st.col v = Color.white
          · exact absurd ⟨h2.1, hWR h2.2⟩ h
          · rw [if_neg h2] at hx; exact hx
        obtain ⟨t1, ⟨w2, t2, t3⟩, t4⟩ := C.tree x hx2 hxs
        refine ⟨t1, ⟨w2, t2, ?_⟩, t4⟩
        rw [hdfin _ t1, s7, if_neg h]
        exact t3
    · -- lower
      intro x hx k hk
      rw [hdfin x hx]
      exact C.lower x hx k hk
    · -- order
      intro x y hx hy
      rw [hdfin x hx, s7]
      by_cases h : y = v ∧ st.col v ≠ Color.black ∧ st.dist u + w < st.dist v
      · rw [if_pos h]
        have := hfle x hx
        omega
      · rw [if_neg h]
        refine C.order x y hx ?_
        rw [s5] at hy
        by_cases h2 : st.col v = Color.white
        · rw [if_pos h2, List.mem_append, List.mem_singleton] at hy
          rcases hy with hy | hy
          · exact hy
          · exact absurd ⟨hy, hWR h2⟩ h
        · rw [if_neg h2] at hy; exact hy
    · -- closed
      intro b y w2 hb hby
      rw [hblack] at hb
      rw [hdfin b (Or.inl hb)]
      have h1 := C.closed b y w2 hb hby
      have h2 := hdle y
      omega
    · exact C.rank_fin
    · exact C.rank_open
  · -- col u = gray
    rw [s6]
    by_cases h : u = v ∧ st.col v = Color.white
    · rw [if_pos h]
    · rw [if_neg h]; exact hu
  · -- done edges
    intro e hmem
    rw [hdfin u (Or.inr rfl)]
    rcases List.mem_cons.mp hmem with rfl | hmem
    · show (visit_edge u (v, w) st).dist v ≤ st.dist u + w
      rw [s7]
      by_cases h : v = v ∧ st.col v ≠ Color.black ∧ st.dist u + w < st.dist v
      · rw [if_pos h]
      · rw [if_neg h]
        by_cases hb : st.col v = Color.black
        · have := hge v hb
          omega
        · have : ¬ st.dist u + w < st.dist v := fun h2 => h ⟨rfl, hb, h2⟩
          omega
    · have h1 := hdone e hmem
      have h2 := hdle e.1
      omega
  · -- black below u
    intro b hb
    rw [hblack] at hb
    rw [hdfin b (Or.inl hb), hdfin u (Or.inr rfl)]
    exact hge b hb

theorem Q_top_eq_none (d : List Int) (q : List Nat) : Q_top d q = none ↔ q = [] := by
  cases q with
  | nil => simp [Q_top]
  | cons v q =>
    simp only [Q_top, reduceCtorEq, iff_false]
    cases Q_top d q with
    | none => simp
    | some m =>
      by_cases h : d.getD m 0 < d.getD v 0
      · simp only [h, if_true]; simp
      · simp only [h, if_false]; simp

theorem Q_top_min (d : List Int) (q : List Nat) (u : Nat) (h : Q_top d q = some u) :
    u ∈ q ∧ ∀ x ∈ q, d.getD u 0 ≤ d.getD x 0 := by
  induction q generalizing u with
  | nil => simp [Q_top] at h
  | cons v q ih =>
    simp only [Q_top] at h
    cases hq : Q_top d q with
    | none =>
      rw [hq] at h
      simp only [Option.some.injEq] at h
      subst h
      have : q = [] := (Q_top_eq_none d q).1 hq
      subst this
      simp
    | some m =>
      rw [hq] at h
      obtain ⟨hm, hmin⟩ := ih m hq
      by_cases hlt : d.getD m 0 < d.getD v 0
      · simp only [hlt, if_true, Option.some.injEq] at h
        subst h
        refine ⟨List.mem_cons_of_mem _ hm, ?_⟩
        intro x hx
        rcases List.mem_cons.mp hx with rfl | hx
        · omega
        · exact hmin x hx
      · simp only [hlt, if_false, Option.some.injEq] at h
        subst h
        refine ⟨List.mem_cons_self _ _, ?_⟩
        intro x hx
        rcases List.mem_cons.mp hx with rfl | hx
        · exact le_refl _
        · have := hmin x hx
          omega

/-- Between two iterations, every path from the source either ends at a black
vertex whose distance it bounds, or is at least as long as the distance of some
queued vertex. -/
theorem inv_path_bound (g : Graph) (s : Nat) (st : State) (rank : Nat → Nat)
    (hwf : WellFormed g) (hnn : NonNegative g) (hun : Unsaturated g s)
    (C : Core g s st (fun x => st.col x = Color.black) st.blackCount rank)
    (v : Nat) (k : Int) (hp : Path g s v k) :
    (st.col v = Color.black ∧ st.dist v ≤ k) ∨ (∃ y ∈ st.Q, st.dist y ≤ k) := by
  induction hp with
  | nil =>
    by_cases hb : st.col s = Color.black
    · left; exact ⟨hb, by rw [C.src.2.1]⟩
    · right
      refine ⟨s, (C.q_mem s).2 ⟨?_, hb⟩, by rw [C.src.2.1]⟩
      have := C.src.1
      cases hcol : st.col s <;> simp_all
  | @snoc x v w k hpx he ih =>
    have hw : 0 ≤ w := hnn (x, v, w) he
    rcases ih with ⟨hxb, hxk⟩ | ⟨y, hy, hyk⟩
    · have hcl := C.closed x v w hxb he
      have hsh : IsShortest g s x (st.dist x) :=
        ⟨(C.seen x (by rw [hxb]; simp)).2, C.lower x hxb⟩
      have hlt := hun x v w _ he hsh
      cases hcol : st.col v with
      | white =>
        have := (C.white v (hwf x v w he).2 hcol).1
        omega
      | gray =>
        right
        exact ⟨v, (C.q_mem v).2 ⟨hcol, by rw [hcol]; simp⟩, by omega⟩
      | black =>
        left
        exact ⟨rfl, by omega⟩
    · right
      exact ⟨y, hy, by omega⟩

/-- Taking the top of the queue establishes the invariant of the out-edge loop. -/
theorem inv_extract (g : Graph) (s : Nat) (st : State) (u : Nat)
    (hwf : WellFormed g) (hnn : NonNegative g) (hun : Unsaturated g s)
    (hinv : Inv g s st) (htop : Q_top st.d st.Q = some u) :
    Mid g s { st with Q := st.Q.erase u } u [] := by
  obtain ⟨rank, C⟩ := hinv
  obtain ⟨huQ, humin⟩ := Q_top_min _ _ _ htop
  have hug := (C.q_mem u).1 huQ
  have hmin : ∀ x ∈ st.Q, st.dist u ≤ st.dist x := humin
  refine ⟨fun x => if st.col x = Color.black then rank x else
      if x = u then st.blackCount else st.blackCount + 1, ?_, hug.1, ?_, ?_⟩
  · constructor
    · exact C.len_d
    · exact C.len_p
    · exact C.len_c
    · exact C.q_nodup.erase u
    · intro x
      show x ∈ st.Q.erase u ↔ _
      rw [C.q_nodup.mem_erase_iff, C.q_mem]
      constructor
      · rintro ⟨h1, h2, h3⟩
        exact ⟨h2, fun h => h.elim h3 h1⟩
      · rintro ⟨h1, h2⟩
        exact ⟨fun h => h2 (Or.inr h), h1, fun h => h2 (Or.inl h)⟩
    · rintro x (hx | rfl)
      · exact C.fin_seen x hx
      · show st.col x ≠ Color.white
        rw [hug.1]; simp
    · exact C.d_nonneg
    · exact C.white
    · exact C.seen
    · exact C.src
    · intro x hx hxs
      obtain ⟨t1, t2, t3⟩ := C.tree x hx hxs
      refine ⟨Or.inl t1, t2, ?_⟩
      have t1b : st.col (st.pred x) = Color.black := t1
      have hr := C.rank_fin _ t1
      show (if st.col (st.pred x) = Color.black then rank (st.pred x) else _) <
        (if st.col x = Color.black then rank x else _)
      rw [if_pos t1b]
      by_cases hxb : st.col x = Color.black
      · rw [if_pos hxb]; exact t3
      · rw [if_neg hxb]
        split <;> omega
    · rintro x (hx | rfl) k hk
      · exact C.lower x hx k hk
      · rcases inv_path_bound g s st rank hwf hnn hun C x k hk with ⟨hb, _⟩ | ⟨y, hy, hyk⟩
        · exact absurd hb hug.2
        · have := hmin y hy
          show st.dist x ≤ k
          omega
    · rintro x y (hx | rfl) hy
      · exact C.order x y hx (List.mem_of_mem_erase hy)
      · exact hmin y (List.mem_of_mem_erase hy)
    · exact C.closed
    · rintro b (hb | rfl)
      · have := C.rank_fin b hb
        have hb2 : st.col b = Color.black := hb
        show (if st.col b = Color.black then rank b else _) < st.blackCount + 1
        rw [if_pos hb2]; omega
      · show (if st.col b = Color.black then rank b else _) < st.blackCount + 1
        rw [if_neg hug.2, if_pos rfl]; omega
    · intro v hv
      have h1 : ¬ st.col v = Color.black := fun h => hv (Or.inl h)
      have h2 : ¬ v = u := fun h => hv (Or.inr h)
      show st.blackCount + 1 ≤ (if st.col v = Color.black then rank v else _)
      rw [if_neg h1, if_neg h2]
  · intro e he
    simp at he
  · intro b hb
    exact C.order b u hb huQ

/-- The whole out-edge loop keeps the invariant and does not throw. -/
theorem mid_out_edge_loop (g : Graph) (s u : Nat)
    (hwf : WellFormed g) (hnn : NonNegative g) (hun : Unsaturated g s) :
    ∀ (es : List (Nat × Int)) (st : State) (done : List (Nat × Int)),
      Mid g s st u done → (∀ e ∈ es, (u, e.1, e.2) ∈ edges g) →
      ∃ st2, out_edge_loop u es st = Outcome.ok st2 ∧ Mid g s st2 u (es.reverse ++ done)
        ∧ st2.blackCount = st.blackCount := by
  intro es
  induction es with
  | nil =>
    intro st done hm _
    exact ⟨st, rfl, by simpa using hm, rfl⟩
  | cons e es ih =>
    intro st done hm hes
    have he := hes e (List.mem_cons_self _ _)
    have hw : 0 ≤ e.2 := hnn (u, e.1, e.2) he
    have hstep := mid_visit_edge g s st u e.1 e.2 done hwf hun hm he hw
    obtain ⟨st2, h1, h2, h3⟩ := ih (visit_edge u e st) (e :: done) hstep
      (fun e2 he2 => hes e2 (List.mem_cons_of_mem _ he2))
    have hcnt : (visit_edge u e st).blackCount = st.blackCount := by
      obtain ⟨rank, C, _⟩ := hm
      have hvN : e.1 < num_vertices g := (hwf u e.1 e.2 he).2
      exact (visit_edge_spec u e.1 e.2 st (by rw [C.len_d]; exact hvN)
        (by rw [C.len_p]; exact hvN) (by rw [C.len_c]; exact hvN)).2.2.2.1
    refine ⟨st2, ?_, ?_, ?_⟩
    · simp only [out_edge_loop, if_neg (not_lt.mpr hw)]
      exact h1
    · simpa using h2
    · rw [h3, hcnt]

theorem col_set_black (st : State) (u x : Nat) (hu : u < st.color.length) :
    State.col { st with color := st.color.set u Color.black } x =
      if x = u then Color.black else st.col x := by
  by_cases h : x = u
  · subst h
    rw [if_pos rfl]
    exact getD_set_self _ _ _ _ hu
  · rw [if_neg h]
    exact getD_set_ne _ _ _ _ _ (Ne.symm h)

/-- Colouring the examined vertex black after its out-edge loop restores the
invariant of the `while` loop. -/
theorem mid_finish (g : Graph) (s : Nat) (st : State) (u : Nat)
    (hm : Mid g s st u ((out_edges g u).reverse ++ [])) :
    Inv g s { st with color := st.color.set u Color.black }
    ∧ State.blackCount { st with color := st.color.set u Color.black } = st.blackCount + 1 := by
  obtain ⟨rank, C, hu, hdone, hge⟩ := hm
  have huN : u < st.color.length := col_ne_white_lt st u (by rw [hu]; simp)
  have hcol := col_set_black st u
  have hcnt : State.blackCount { st with color := st.color.set u Color.black }
      = st.blackCount + 1 := by
    refine count_set_new _ _ _ huN ?_
    have h1 : st.color.getD u Color.black = st.col u := by
      simp [State.col, List.getD_eq_getElem?_getD, List.getElem?_eq_getElem huN]
    rw [h1, hu]; simp
  have hfin : (fun x => State.col { st with color := st.color.set u Color.black } x = Color.black)
      = (fun x => st.col x = Color.black ∨ x = u) := by
    funext x
    rw [hcol x huN]
    by_cases h : x = u
    · simp [h]
    · simp [h]
  have hnw : ∀ x, State.col { st with color := st.color.set u Color.black } x ≠ Color.white →
      st.col x ≠ Color.white := by
    intro x hx
    rw [hcol x huN] at hx
    by_cases h : x = u
    · rw [h, hu]; simp
    · rw [if_neg h] at hx; exact hx
  refine ⟨⟨rank, ?_⟩, hcnt⟩
  rw [hfin, hcnt]
  constructor
  · exact C.len_d
  · exact C.len_p
  · show (st.color.set u Color.black).length = _
    rw [List.length_set]; exact C.len_c
  · exact C.q_nodup
  · intro x
    rw [hcol x huN]
    show x ∈ st.Q ↔ _
    rw [C.q_mem]
    by_cases h : x = u
    · simp [h]
    · simp [h]
  · intro x hx
    rw [hcol x huN]
    by_cases h : x = u
    · simp [h]
    · rw [if_neg h]; exact C.fin_seen x hx
  · exact C.d_nonneg
  · intro x hxN hx
    rw [hcol x huN] at hx
    by_cases h : x = u
    · rw [if_pos h] at hx; exact absurd hx (by simp)
    · rw [if_neg h] at hx; exact C.white x hxN hx
  · intro x hx
    exact C.seen x (hnw x hx)
  · refine ⟨?_, C.src.2⟩
    rw [hcol s huN]
    by_cases h : s = u
    · simp [h]
    · rw [if_neg h]; exact C.src.1
  · intro x hx hxs
    exact C.tree x (hnw x hx) hxs
  · exact C.lower
  · exact C.order
  · intro b y w hb hby
    rw [hcol b huN] at hb
    by_cases h : b = u
    · subst h
      have hmem : (y, w) ∈ (out_edges g b).reverse ++ [] := by
        simpa using (mem_edges g b y w).1 hby
      exact hdone (y, w) hmem
    · rw [if_neg h] at hb
      exact C.closed b y w hb hby
  · exact C.rank_fin
  · exact C.rank_open

/-- One iteration of the `while` loop. -/
theorem inv_step (g : Graph) (s : Nat) (st : State) (u : Nat)
    (hwf : WellFormed g) (hnn : NonNegative g) (hun : Unsaturated g s)
    (hinv : Inv g s st) (htop : Q_top st.d st.Q = some u) :
    ∃ st1, out_edge_loop u (out_edges g u) { st with Q := st.Q.erase u } = Outcome.ok st1
      ∧ Inv g s { st1 with color := st1.color.set u Color.black }
      ∧ State.blackCount { st1 with color := st1.color.set u Color.black } = st.blackCount + 1 := by
  have hmid := inv_extract g s st u hwf hnn hun hinv htop
  obtain ⟨st1, h1, h2, h4⟩ := mid_out_edge_loop g s u hwf hnn hun (out_edges g u) _ [] hmid
    (fun e he => (mem_edges g u e.1 e.2).2 he)
  have h3 := mid_finish g s st1 u h2
  refine ⟨st1, h1, h3.1, ?_⟩
  rw [h3.2, h4]
  rfl

/-- When every vertex is black the queue is empty. -/
theorem inv_all_black (g : Graph) (s : Nat) (st : State) (hinv : Inv g s st)
    (h : num_vertices g ≤ st.blackCount) : st.Q = [] := by
  obtain ⟨rank, C⟩ := hinv
  have hle := List.count_le_length Color.black st.color
  have heq : List.count Color.black st.color = st.color.length := by
    have : st.color.length = num_vertices g := C.len_c
    unfold State.blackCount at h
    omega
  rw [List.count_eq_length] at heq
  cases hQ : st.Q with
  | nil => rfl
  | cons x q =>
    exfalso
    have hx : x ∈ st.Q := by rw [hQ]; exact List.mem_cons_self _ _
    obtain ⟨h1, h2⟩ := (C.q_mem x).1 hx
    have hxN : x < st.color.length := col_ne_white_lt st x (by rw [h1]; simp)
    have h3 : st.col x = st.color[x] := by
      simp [State.col, List.getD_eq_getElem?_getD, List.getElem?_eq_getElem hxN]
    have h4 := heq (st.color[x]) (List.getElem_mem hxN)
    rw [← h3, h1] at h4
    exact absurd h4 (by simp)

/-- The `while` loop ends, without exception, within one iteration per vertex
that is not yet black, in a state that satisfies the invariant and has an
empty queue. -/
theorem breadth_first_visit_ok (g : Graph) (s : Nat)
    (hwf : WellFormed g) (hnn : NonNegative g) (hun : Unsaturated g s) :
    ∀ (fuel : Nat) (st : State), Inv g s st → num_vertices g ≤ fuel + st.blackCount →
      ∃ st2, breadth_first_visit g fuel st = Outcome.ok st2 ∧ Inv g s st2 ∧ st2.Q = [] := by
  intro fuel
  induction fuel with
  | zero =>
    intro st hinv hf
    have hQ := inv_all_black g s st hinv (by omega)
    refine ⟨st, ?_, hinv, hQ⟩
    simp [breadth_first_visit, hQ, Q_top]
  | succ fuel ih =>
    intro st hinv hf
    cases htop : Q_top st.d st.Q with
    | none =>
      refine ⟨st, ?_, hinv, (Q_top_eq_none _ _).1 htop⟩
      simp [breadth_first_visit, htop]
    | some u =>
      obtain ⟨st1, h1, h2, h3⟩ := inv_step g s st u hwf hnn hun hinv htop
      obtain ⟨st2, h4, h5, h6⟩ := ih _ h2 (by omega)
      refine ⟨st2, ?_, h5, h6⟩
      simp only [breadth_first_visit, htop, h1]
      exact h4

/-- The state set up by `dijkstra_shortest_paths` satisfies the invariant. -/
theorem inv_init (g : Graph) (s : Nat) (hs : s < num_vertices g) :
    Inv g s (dijkstra_init g s) := by
  have hcol : ∀ x, (dijkstra_init g s).col x = if x = s then Color.gray else Color.white := by
    intro x
    unfold State.col dijkstra_init
    by_cases h : x = s
    · subst h
      rw [if_pos rfl]
      exact getD_set_self _ _ _ _ (by simpa using hs)
    · rw [if_neg h, getD_set_ne _ _ _ _ _ (Ne.symm h)]
      simp only [List.getD_eq_getElem?_getD, List.getElem?_replicate]
      split <;> simp
  have hdist : ∀ x, (dijkstra_init g s).dist x =
      if x = s then 0 else if x < num_vertices g then INT_MAX else 0 := by
    intro x
    unfold State.dist dijkstra_init
    by_cases h : x = s
    · subst h
      rw [if_pos rfl]
      exact getD_set_self _ _ _ _ (by simpa using hs)
    · rw [if_neg h, getD_set_ne _ _ _ _ _ (Ne.symm h)]
      simp only [List.getD_eq_getElem?_getD, List.getElem?_replicate]
      split <;> simp
  have hpred : ∀ x, x < num_vertices g → (dijkstra_init g s).pred x = x := by
    intro x hx
    unfold State.pred dijkstra_init
    simp [List.getD_eq_getElem?_getD, List.getElem?_range hx]
  have hnb : ∀ x, ¬ (dijkstra_init g s).col x = Color.black := by
    intro x
    rw [hcol]
    split <;> simp
  have hcnt : (dijkstra_init g s).blackCount = 0 := by
    unfold State.blackCount
    rw [List.count_eq_zero]
    intro hmem
    obtain ⟨i, hi, heq⟩ := List.getElem_of_mem hmem
    have h3 : (dijkstra_init g s).col i = (dijkstra_init g s).color[i] := by
      simp [State.col, List.getD_eq_getElem?_getD, List.getElem?_eq_getElem hi]
    exact hnb i (h3.trans heq)
  refine ⟨fun _ => 0, ?_⟩
  rw [hcnt]
  constructor
  · simp [dijkstra_init]
  · simp [dijkstra_init]
  · simp [dijkstra_init]
  · simp [dijkstra_init]
  · intro x
    rw [hcol]
    simp only [dijkstra_init, List.mem_singleton]
    by_cases h : x = s
    · simp [h]
    · simp [h]
  · intro x hx
    exact absurd hx (hnb x)
  · intro x
    rw [hdist]
    unfold INT_MAX
    split
    · exact le_refl _
    · split <;> omega
  · intro x hxN hx
    rw [hcol] at hx
    by_cases h : x = s
    · rw [if_pos h] at hx; exact absurd hx (by simp)
    · rw [hdist, if_neg h, if_pos hxN]
      exact ⟨rfl, hpred x hxN⟩
  · intro x hx
    rw [hcol] at hx
    by_cases h : x = s
    · subst h
      rw [hdist, if_pos rfl]
      exact ⟨by unfold INT_MAX; omega, Path.nil⟩
    · rw [if_neg h] at hx; exact absurd rfl hx
  · refine ⟨?_, ?_, hpred s hs⟩
    · rw [hcol, if_pos rfl]; simp
    · rw [hdist, if_pos rfl]
  · intro x hx hxs
    rw [hcol, if_neg hxs] at hx
    exact absurd rfl hx
  · intro x hx
    exact absurd hx (hnb x)
  · intro x y hx
    exact absurd hx (hnb x)
  · intro b y w hb
    exact absurd hb (hnb b)
  · intro b hb
    exact absurd hb (hnb b)
  · intro v _
    exact Nat.zero_le _

/-- With non-negative weights and no saturation the solver returns, and the
state it leaves satisfies the invariant with an empty queue. -/
theorem dijkstra_run_ok (g : Graph) (s : Nat)
    (hwf : WellFormed g) (hnn : NonNegative g) (hun : Unsaturated g s)
    (hs : s < num_vertices g) :
    ∃ st, dijkstra_run g s = Outcome.ok st ∧ solve g s = Outcome.ok (st.d, st.p)
      ∧ Inv g s st ∧ st.Q = [] := by
  obtain ⟨st, h1, h2, h3⟩ := breadth_first_visit_ok g s hwf hnn hun (num_vertices g)
    (dijkstra_init g s) (inv_init g s hs) (by omega)
  refine ⟨st, h1, ?_, h2, h3⟩
  unfold solve dijkstra_run
  rw [h1]

/-- In a final state a vertex is black exactly when it is reachable, and the
distance of a black vertex is the least weight of a path to it. -/
theorem final_reachable (g : Graph) (s : Nat) (st : State)
    (hwf : WellFormed g) (hnn : NonNegative g) (hun : Unsaturated g s)
    (hinv : Inv g s st) (hQ : st.Q = []) (v : Nat) (hr : Reachable g s v) :
    st.col v = Color.black ∧ IsShortest g s v (st.dist v) := by
  obtain ⟨rank, C⟩ := hinv
  have hb : st.col v = Color.black := by
    obtain ⟨k, hk⟩ := hr
    rcases inv_path_bound g s st rank hwf hnn hun C v k hk with ⟨hb, _⟩ | ⟨y, hy, _⟩
    · exact hb
    · rw [hQ] at hy; simp at hy
  refine ⟨hb, (C.seen v (by rw [hb]; simp)).2, C.lower v hb⟩

theorem final_not_gray (g : Graph) (s : Nat) (st : State)
    (hinv : Inv g s st) (hQ : st.Q = []) (v : Nat) (h : st.col v ≠ Color.white) :
    st.col v = Color.black := by
  obtain ⟨rank, C⟩ := hinv
  cases hcol : st.col v with
  | white => exact absurd hcol h
  | gray =>
    have := (C.q_mem v).2 ⟨hcol, by rw [hcol]; simp⟩
    rw [hQ] at this
    simp at this
  | black => rfl

/-! ## Predecessor chains and the walk -/

theorem chain_head (p : List Nat) (s v : Nat) (l : List Nat) (h : Chain p s v l) :
    ∃ t, l = v :: t := by
  cases h with
  | base => exact ⟨[], rfl⟩
  | step _ _ _ => exact ⟨_, rfl⟩

theorem chain_getLast (p : List Nat) (s v : Nat) (l : List Nat) (h : Chain p s v l) :
    l.getLast? = some s := by
  induction h with
  | base => rfl
  | @step u v l hv hp hc ih =>
    obtain ⟨t, rfl⟩ := chain_head p s u l hc
    rw [List.getLast?_cons_cons]
    exact ih

/-- Along a predecessor chain the walk stores exactly the chain, as soon as it
is allowed one iteration per vertex of the chain other than the start. -/
theorem walk_chain (p : List Nat) (s v : Nat) (l : List Nat) (h : Chain p s v l) :
    ∀ (fuel : Nat) (acc : List Nat), l.length ≤ fuel + 1 →
      walk p s fuel v acc = WalkResult.finished (acc ++ l) := by
  induction h with
  | base =>
    intro fuel acc _
    unfold walk
    simp
  | @step u v l hv hp hc ih =>
    intro fuel acc hf
    obtain ⟨t, rfl⟩ := chain_head p s u l hc
    cases fuel with
    | zero => simp at hf
    | succ fuel =>
      unfold walk
      simp only [if_neg hv, hp]
      rw [ih fuel (acc ++ [v]) (by simpa using hf)]
      simp

theorem route_snoc (g : Graph) (m : List Nat) (u v : Nat) (w : Int)
    (he : (u, v, w) ∈ edges g) :
    ∀ k, Route g (m ++ [u]) k → Route g (m ++ [u, v]) (k + w) := by
  induction m with
  | nil =>
    intro k h
    simp only [List.nil_append, Route] at h ⊢
    subst h
    exact ⟨w, he, by simp⟩
  | cons a m ih =>
    intro k h
    cases m with
    | nil =>
      simp only [List.cons_append, List.nil_append, Route] at h ⊢
      obtain ⟨w1, h1, h2⟩ := h
      exact ⟨w1, h1, w, he, by omega⟩
    | cons b m =>
      simp only [List.cons_append, Route] at h ⊢
      obtain ⟨w1, h1, h2⟩ := h
      refine ⟨w1, h1, ?_⟩
      have := ih (k - w1) (by simpa using h2)
      have heq : k + w - w1 = k - w1 + w := by omega
      rw [heq]
      simpa using this

/-- From every discovered vertex the predecessor vector leads back to the
source along edges of the graph whose weights add up to its distance, within
as many steps as its rank. -/
theorem core_chain (g : Graph) (s : Nat) (st : State) (fin : Nat → Prop) (T : Nat)
    (rank : Nat → Nat) (C : Core g s st fin T rank) :
    ∀ (n v : Nat), rank v ≤ n → st.col v ≠ Color.white →
      ∃ l, Chain st.p s v l ∧ l.length ≤ n + 1 ∧ Route g l.reverse (st.dist v) := by
  have hbase : ∃ l, Chain st.p s s l ∧ l.length ≤ 0 + 1 ∧ Route g l.reverse (st.dist s) :=
    ⟨[s], Chain.base, by simp, by simp [Route, C.src.2.1]⟩
  intro n
  induction n with
  | zero =>
    intro v hr hv
    by_cases hvs : v = s
    · subst hvs; exact hbase
    · have := (C.tree v hv hvs).2.2
      omega
  | succ n ih =>
    intro v hr hv
    by_cases hvs : v = s
    · subst hvs
      obtain ⟨l, h1, h2, h3⟩ := hbase
      exact ⟨l, h1, by omega, h3⟩
    · obtain ⟨t1, ⟨w, t2, t3⟩, t4⟩ := C.tree v hv hvs
      obtain ⟨l, h1, h2, h3⟩ := ih (st.pred v) (by omega) (C.fin_seen _ t1)
      obtain ⟨t, rfl⟩ := chain_head _ _ _ _ h1
      have hvN : v < st.p.length := by
        rw [C.len_p, ← C.len_c]; exact col_ne_white_lt st v hv
      have hp : st.p[v]? = some (st.pred v) := by
        simp [State.pred, List.getD_eq_getElem?_getD, List.getElem?_eq_getElem hvN]
      refine ⟨v :: st.pred v :: t, Chain.step hvs hp h1, by simpa using h2, ?_⟩
      have h4 := route_snoc g t.reverse (st.pred v) v w t2 (st.dist (st.pred v))
        (by simpa using h3)
      rw [t3]
      simpa using h4

theorem unsaturated_of_paths (g : Graph) (s : Nat) (B : Nat → Int)
    (h : ∀ e ∈ edges g, Path g s e.1 (B e.1) ∧ B e.1 + e.2.2 < INT_MAX) : Unsaturated g s := by
  intro u v w k he hsh
  obtain ⟨h1, h3⟩ := h (u, v, w) he
  have h2 := hsh.2 _ h1
  have h4 : B u + w < INT_MAX := h3
  have h5 : k ≤ B u := h2
  omega

theorem edges_main_graph :
    edges main_graph = [(0, 3, 1), (2, 5, 1), (3, 4, 1), (4, 5, 1), (5, 2, 1)] := by
  decide

theorem main_graph_paths :
    Path main_graph 0 0 0 ∧ Path main_graph 0 3 1 ∧ Path main_graph 0 4 2
      ∧ Path main_graph 0 5 3 ∧ Path main_graph 0 2 4 := by
  have p0 : Path main_graph 0 0 0 := Path.nil
  have p3 : Path main_graph 0 3 1 :=
    Path.snoc p0 (show (0, 3, 1) ∈ edges main_graph by rw [edges_main_graph]; simp)
  have p4 : Path main_graph 0 4 2 :=
    Path.snoc p3 (show (3, 4, 1) ∈ edges main_graph by rw [edges_main_graph]; simp)
  have p5 : Path main_graph 0 5 3 :=
    Path.snoc p4 (show (4, 5, 1) ∈ edges main_graph by rw [edges_main_graph]; simp)
  have p2 : Path main_graph 0 2 4 :=
    Path.snoc p5 (show (5, 2, 1) ∈ edges main_graph by rw [edges_main_graph]; simp)
  exact ⟨p0, p3, p4, p5, p2⟩

theorem nonNegative_main_graph : NonNegative main_graph := by
  intro e he
  rw [edges_main_graph] at he
  simp only [List.mem_cons, List.mem_singleton, List.not_mem_nil, or_false] at he
  rcases he with rfl | rfl | rfl | rfl | rfl <;> decide

theorem unsaturated_main_graph : Unsaturated main_graph 0 := by
  obtain ⟨p0, p3, p4, p5, p2⟩ := main_graph_paths
  refine unsaturated_of_paths main_graph 0
    (fun u => if u = 0 then 0 else if u = 3 then 1 else if u = 4 then 2 else
      if u = 5 then 3 else 4) ?_
  intro e he
  rw [edges_main_graph] at he
  simp only [List.mem_cons, List.mem_singleton, List.not_mem_nil, or_false] at he
  rcases he with rfl | rfl | rfl | rfl | rfl
  · exact ⟨p0, by decide⟩
  · exact ⟨p2, by decide⟩
  · exact ⟨p3, by decide⟩
  · exact ⟨p4, by decide⟩
  · exact ⟨p5, by decide⟩

/-- C1 (amended): for every constructed graph with non-negative edge weights
in which no relaxation candidate reaches the infinite value `INT_MAX`, and
every source vertex, the solver returns, and for every vertex `v` reachable
from the source the returned `distance[v]` is the minimum, over all directed
paths from the source to `v`, of the sum of the edge weights on the path. -/
theorem solve_distance_is_shortest (ea : List (Nat × Nat)) (ws : List Int) (n s : Nat)
    (hnn : NonNegative (adjacency_list ea ws n))
    (hun : Unsaturated (adjacency_list ea ws n) s)
    (hs : s < num_vertices (adjacency_list ea ws n)) :
    ∃ d p, solve (adjacency_list ea ws n) s = Outcome.ok (d, p) ∧
      ∀ v, Reachable (adjacency_list ea ws n) s v →
        IsShortest (adjacency_list ea ws n) s v (d.getD v 0) := by
  have hwf := wellFormed_adjacency_list ea ws n
  obtain ⟨st, _, h2, h3, h4⟩ := dijkstra_run_ok _ s hwf hnn hun hs
  exact ⟨st.d, st.p, h2, fun v hv => (final_reachable _ s st hwf hnn hun h3 h4 v hv).2⟩

/-- Witness of C1 on the graph of `main` with source 0. -/
theorem solve_distance_is_shortest_witness :
    NonNegative main_graph ∧ Unsaturated main_graph 0 ∧ 0 < num_vertices main_graph ∧
    ∃ d p, solve main_graph 0 = Outcome.ok (d, p) ∧
      ∀ v, Reachable main_graph 0 v → IsShortest main_graph 0 v (d.getD v 0) :=
  ⟨nonNegative_main_graph, unsaturated_main_graph, by decide,
    solve_distance_is_shortest edge_array weights_v num_nodes 0 nonNegative_main_graph
      unsaturated_main_graph (by decide)⟩

/-! A graph on which a relaxation candidate reaches `INT_MAX`. -/

theorem edges_saturated :
    edges (adjacency_list [(0, 1), (1, 2)] [2147483647, 1] 3)
      = [(0, 1, 2147483647), (1, 2, 1)] := by
  decide

theorem paths_saturated (v : Nat) (k : Int)
    (h : Path (adjacency_list [(0, 1), (1, 2)] [2147483647, 1] 3) 0 v k) :
    (v = 0 ∧ k = 0) ∨ (v = 1 ∧ k = 2147483647) ∨ (v = 2 ∧ k = 2147483648) := by
  induction h with
  | nil => left; exact ⟨rfl, rfl⟩
  | @snoc x v w k _ he ih =>
    rw [edges_saturated] at he
    simp only [List.mem_cons, List.mem_singleton, List.not_mem_nil, or_false,
      Prod.mk.injEq] at he
    rcases he with ⟨rfl, rfl, rfl⟩ | ⟨rfl, rfl, rfl⟩
    · rcases ih with ⟨_, rfl⟩ | ⟨h, _⟩ | ⟨h, _⟩
      · right; left; exact ⟨rfl, by norm_num⟩
      · omega
      · omega
    · rcases ih with ⟨h, _⟩ | ⟨_, rfl⟩ | ⟨h, _⟩
      · omega
      · right; right; exact ⟨rfl, by norm_num⟩
      · omega

theorem shortest_saturated :
    IsShortest (adjacency_list [(0, 1), (1, 2)] [2147483647, 1] 3) 0 2 2147483648 := by
  have h01 : (0, 1, 2147483647) ∈ edges (adjacency_list [(0, 1), (1, 2)] [2147483647, 1] 3) := by
    rw [edges_saturated]; simp
  have h12 : (1, 2, 1) ∈ edges (adjacency_list [(0, 1), (1, 2)] [2147483647, 1] 3) := by
    rw [edges_saturated]; simp
  refine ⟨Path.snoc (Path.snoc Path.nil h01) h12, ?_⟩
  intro k2 hk2
  rcases paths_saturated 2 k2 hk2 with ⟨h, _⟩ | ⟨h, _⟩ | ⟨_, rfl⟩
  · omega
  · omega
  · exact le_refl _

/-- C1 as stated fails: on the graph with edges (0,1) of weight 2147483647 and
(1,2) of weight 1, all weights non-negative, vertex 2 is reachable from 0 and
its least path weight is 2147483648, but the solver returns distance[2] =
2147483647. -/
theorem solve_distance_saturates :
    NonNegative (adjacency_list [(0, 1), (1, 2)] [2147483647, 1] 3) ∧
    IsShortest (adjacency_list [(0, 1), (1, 2)] [2147483647, 1] 3) 0 2 2147483648 ∧
    ∃ d p, solve (adjacency_list [(0, 1), (1, 2)] [2147483647, 1] 3) 0 = Outcome.ok (d, p) ∧
      d.getD 2 0 = 2147483647 := by
  refine ⟨?_, shortest_saturated, [0, 2147483647, 2147483647], [0, 1, 2], by decide, by decide⟩
  intro e he
  rw [edges_saturated] at he
  simp only [List.mem_cons, List.mem_singleton, List.not_mem_nil, or_false] at he
  rcases he with rfl | rfl <;> decide

/-- A vertex other than the start that is its own predecessor keeps the walk
running for ever. -/
theorem walk_self_loop (p : List Nat) (s v : Nat) (hv : v ≠ s) (hp : p[v]? = some v) :
    ∀ (fuel : Nat) (acc : List Nat), walk p s fuel v acc = WalkResult.running := by
  intro fuel
  induction fuel with
  | zero =>
    intro acc
    unfold walk
    simp [hv]
  | succ fuel ih =>
    intro acc
    unfold walk
    simp only [if_neg hv, hp]
    exact ih _

theorem solve_main_graph :
    solve main_graph 0 = Outcome.ok ([0, 2147483647, 4, 1, 2, 3], [0, 1, 5, 0, 3, 4]) := by
  decide

theorem not_reachable_main_1 : ¬ Reachable main_graph 0 1 := by
  rintro ⟨k, hk⟩
  have key : ∀ v k, Path main_graph 0 v k → v ≠ 1 := by
    intro v k h
    induction h with
    | nil => decide
    | @snoc x v w k _ he _ =>
      rw [edges_main_graph] at he
      simp only [List.mem_cons, List.mem_singleton, List.not_mem_nil, or_false,
        Prod.mk.injEq] at he
      rcases he with ⟨_, rfl, _⟩ | ⟨_, rfl, _⟩ | ⟨_, rfl, _⟩ | ⟨_, rfl, _⟩ | ⟨_, rfl, _⟩ <;> decide
  exact key 1 k hk rfl

theorem chain_main_2 : Chain [0, 1, 5, 0, 3, 4] 0 2 [2, 5, 4, 3, 0] :=
  Chain.step (by decide) (by decide : [0, 1, 5, 0, 3, 4][2]? = some 5)
    (Chain.step (by decide) (by decide : [0, 1, 5, 0, 3, 4][5]? = some 4)
      (Chain.step (by decide) (by decide : [0, 1, 5, 0, 3, 4][4]? = some 3)
        (Chain.step (by decide) (by decide : [0, 1, 5, 0, 3, 4][3]? = some 0) Chain.base)))

/-- C2: on the fixed graph of `main` (6 vertices, edges (0,3), (2,5), (3,4),
(4,5), (5,2), every weight 1, source 0) the solver gives distance[2] = 4, the
path reconstructed for goal 2 is exactly [0,3,4,5,2] (once the walk is allowed
its four iterations), and vertex 1 is unreachable, with distance[1] equal to
the infinite value `INT_MAX` and predecessor[1] = 1. -/
theorem main_scenario :
    main_graph = adjacency_list [(0, 3), (2, 5), (3, 4), (4, 5), (5, 2)] (List.replicate 40 1) 6 ∧
    edges main_graph = [(0, 3, 1), (2, 5, 1), (3, 4, 1), (4, 5, 1), (5, 2, 1)] ∧
    ∃ d p, solve main_graph 0 = Outcome.ok (d, p) ∧
      d.getD 2 0 = 4 ∧
      (∀ fuel, 4 ≤ fuel → reconstruct p 0 2 fuel = WalkResult.finished [0, 3, 4, 5, 2]) ∧
      ¬ Reachable main_graph 0 1 ∧ d.getD 1 0 = INT_MAX ∧ p.getD 1 0 = 1 := by
  refine ⟨rfl, edges_main_graph, _, _, solve_main_graph, by decide, ?_, not_reachable_main_1,
    by decide, by decide⟩
  intro fuel hf
  unfold reconstruct
  rw [walk_chain _ _ _ _ chain_main_2 fuel [] (by simpa using hf)]
  rfl

/-- C3 as stated fails: on the predecessor vector the solver returns for the
graph of `main`, with source 0 and the unreachable goal 1 (predecessor[1] = 1),
the walk has not returned after any number of iterations: it reports no
failure and does not terminate. -/
theorem reconstruct_unreachable_main :
    ∃ d p, solve main_graph 0 = Outcome.ok (d, p) ∧ ¬ Reachable main_graph 0 1 ∧
      p[1]? = some 1 ∧ ∀ fuel, reconstruct p 0 1 fuel = WalkResult.running := by
  refine ⟨_, _, solve_main_graph, not_reachable_main_1, by decide, ?_⟩
  intro fuel
  unfold reconstruct
  rw [walk_self_loop _ 0 1 (by decide) (by decide) fuel []]

/-- C3 (amended): for every predecessor vector, source and goal with goal !=
source and predecessor[goal] == goal, the walk of `reconstruct` never exits:
whatever number of iterations it is allowed it is still running, so neither a
path nor a failure is returned. -/
theorem reconstruct_unreachable_runs (p : List Nat) (s goal : Nat) (hne : goal ≠ s)
    (hp : p[goal]? = some goal) (fuel : Nat) :
    reconstruct p s goal fuel = WalkResult.running := by
  unfold reconstruct
  rw [walk_self_loop p s goal hne hp fuel []]

/-- Witness of C3 (amended) on a two-vertex predecessor vector. -/
theorem reconstruct_unreachable_runs_witness :
    (1 : Nat) ≠ 0 ∧ [0, 1][1]? = some 1 ∧ reconstruct [0, 1] 0 1 7 = WalkResult.running :=
  ⟨by decide, by decide, reconstruct_unreachable_runs [0, 1] 0 1 (by decide) (by decide) 7⟩

/-- C5: for every predecessor vector and every vertex `s`, reconstructing the
path from `s` to `s` gives the single-element sequence `[s]`, whatever the
iteration bound: the loop body is never entered. -/
theorem reconstruct_source (p : List Nat) (s fuel : Nat) :
    reconstruct p s s fuel = WalkResult.finished [s] := by
  unfold reconstruct walk
  simp

/-- C4 (amended): for every constructed graph with non-negative weights in
which no relaxation candidate reaches `INT_MAX`, every source and every goal
reachable from the source, the walk over the solver's predecessor vector exits
within `num_vertices - 1` iterations, and the path it yields starts at the
source, ends at the goal, joins every consecutive pair of vertices by an edge
of the graph, and admits a choice of such edges whose weights sum to
distance[goal]. -/
theorem reconstruct_path_valid (ea : List (Nat × Nat)) (ws : List Int) (n s : Nat)
    (hnn : NonNegative (adjacency_list ea ws n))
    (hun : Unsaturated (adjacency_list ea ws n) s)
    (hs : s < num_vertices (adjacency_list ea ws n)) :
    ∃ d p, solve (adjacency_list ea ws n) s = Outcome.ok (d, p) ∧
      ∀ goal, Reachable (adjacency_list ea ws n) s goal →
        ∃ path,
          (∀ fuel, num_vertices (adjacency_list ea ws n) ≤ fuel + 1 →
            reconstruct p s goal fuel = WalkResult.finished path)
          ∧ path.head? = some s ∧ path.getLast? = some goal
          ∧ Route (adjacency_list ea ws n) path (d.getD goal 0) := by
  have hwf := wellFormed_adjacency_list ea ws n
  obtain ⟨st, _, h2, h3, h4⟩ := dijkstra_run_ok _ s hwf hnn hun hs
  refine ⟨st.d, st.p, h2, ?_⟩
  intro goal hg
  have hb := (final_reachable _ s st hwf hnn hun h3 h4 goal hg).1
  obtain ⟨rank, C⟩ := h3
  obtain ⟨l, c1, c2, c3⟩ := core_chain _ s st _ _ rank C (rank goal) goal (le_refl _)
    (by rw [hb]; simp)
  have hr := C.rank_fin goal hb
  have hcnt : st.blackCount ≤ num_vertices (adjacency_list ea ws n) := by
    rw [← C.len_c]; exact List.count_le_length _ _
  refine ⟨l.reverse, ?_, ?_, ?_, c3⟩
  · intro fuel hf
    unfold reconstruct
    rw [walk_chain _ _ _ _ c1 fuel [] (by omega)]
    rfl
  · rw [List.head?_reverse]; exact chain_getLast _ _ _ _ c1
  · obtain ⟨t, rfl⟩ := chain_head _ _ _ _ c1
    simp

/-- Witness of C4 on the graph of `main` with source 0. -/
theorem reconstruct_path_valid_witness :
    NonNegative main_graph ∧ Unsaturated main_graph 0 ∧ 0 < num_vertices main_graph ∧
    ∃ d p, solve main_graph 0 = Outcome.ok (d, p) ∧
      ∀ goal, Reachable main_graph 0 goal →
        ∃ path,
          (∀ fuel, num_vertices main_graph ≤ fuel + 1 →
            reconstruct p 0 goal fuel = WalkResult.finished path)
          ∧ path.head? = some 0 ∧ path.getLast? = some goal
          ∧ Route main_graph path (d.getD goal 0) :=
  ⟨nonNegative_main_graph, unsaturated_main_graph, by decide,
    reconstruct_path_valid edge_array weights_v num_nodes 0 nonNegative_main_graph
      unsaturated_main_graph (by decide)⟩

/-- C4 as stated fails: on the graph with edges (0,1) of weight 2147483647 and
(1,2) of weight 1, all weights non-negative, the goal 2 is reachable from the
source 0, but the solver leaves predecessor[2] = 2 and the walk from 2 never
exits, so no path is produced. -/
theorem reconstruct_saturated_runs :
    NonNegative (adjacency_list [(0, 1), (1, 2)] [2147483647, 1] 3) ∧
    Reachable (adjacency_list [(0, 1), (1, 2)] [2147483647, 1] 3) 0 2 ∧
    ∃ d p, solve (adjacency_list [(0, 1), (1, 2)] [2147483647, 1] 3) 0 = Outcome.ok (d, p) ∧
      ∀ fuel, reconstruct p 0 2 fuel = WalkResult.running := by
  refine ⟨?_, ⟨_, shortest_saturated.1⟩, [0, 2147483647, 2147483647], [0, 1, 2], by decide, ?_⟩
  · intro e he
    rw [edges_saturated] at he
    simp only [List.mem_cons, List.mem_singleton, List.not_mem_nil, or_false] at he
    rcases he with rfl | rfl <;> decide
  · intro fuel
    unfold reconstruct
    rw [walk_self_loop _ 0 2 (by decide) (by decide) fuel []]

/-- The facts about black edges in a final state. -/
theorem final_tree_edge (g : Graph) (s : Nat) (st : State)
    (hwf : WellFormed g) (hnn : NonNegative g) (hun : Unsaturated g s)
    (hinv : Inv g s st) (hQ : st.Q = [])
    (u v : Nat) (w : Int) (he : (u, v, w) ∈ edges g) (hp : st.pred v = u) :
    (u ≠ v → Reachable g s u ∧ Reachable g s v ∧ st.dist v ≤ st.dist u + w
        ∧ ∃ w2, (u, v, w2) ∈ edges g ∧ st.dist u + w2 = st.dist v)
    ∧ (u = v → v = s ∨ ¬ Reachable g s v) := by
  have hfr := final_reachable g s st hwf hnn hun hinv hQ
  obtain ⟨rank, C⟩ := hinv
  have hvN := (hwf u v w he).2
  constructor
  · intro huv
    have hvw : st.col v ≠ Color.white := by
      intro h
      have := (C.white v hvN h).2
      omega
    have hvs : v ≠ s := by
      rintro rfl
      have := C.src.2.2
      omega
    obtain ⟨t1, ⟨w2, t2, t3⟩, _⟩ := C.tree v hvw hvs
    rw [hp] at t1 t2 t3
    have t1b : st.col u = Color.black := t1
    refine ⟨⟨_, (C.seen u (by rw [t1b]; simp)).2⟩, ⟨_, (C.seen v hvw).2⟩,
      C.closed u v w t1 he, w2, t2, t3.symm⟩
  · rintro rfl
    by_cases hvs : u = s
    · left; exact hvs
    · right
      intro hr
      have hb := (hfr u hr).1
      have := (C.tree u (by rw [hb]; simp) hvs).2.2
      rw [hp] at this
      omega

/-- C7 (amended): for every constructed graph with non-negative weights in
which no relaxation candidate reaches `INT_MAX`, and every source: an edge
(u,v) of weight w with u != v that the exporter marks as a tree edge has both
endpoints reachable, satisfies distance[v] <= distance[u] + w, and some edge
(u,v) of the graph, of weight w2, lies on a shortest path to v: distance[u] +
w2 == distance[v], with both distances the shortest-path weights; a self-loop
(v,v) marked as a tree edge has v the source or unreachable. -/
theorem tree_edge_sound (ea : List (Nat × Nat)) (ws : List Int) (n s : Nat)
    (hnn : NonNegative (adjacency_list ea ws n))
    (hun : Unsaturated (adjacency_list ea ws n) s)
    (hs : s < num_vertices (adjacency_list ea ws n)) :
    ∃ d p, solve (adjacency_list ea ws n) s = Outcome.ok (d, p) ∧
      ∀ u v w, (u, v, w) ∈ edges (adjacency_list ea ws n) → tree_edge p u v = true →
        (u ≠ v →
          IsShortest (adjacency_list ea ws n) s u (d.getD u 0)
          ∧ IsShortest (adjacency_list ea ws n) s v (d.getD v 0)
          ∧ d.getD v 0 ≤ d.getD u 0 + w
          ∧ ∃ w2, (u, v, w2) ∈ edges (adjacency_list ea ws n) ∧ d.getD u 0 + w2 = d.getD v 0)
        ∧ (u = v → v = s ∨ ¬ Reachable (adjacency_list ea ws n) s v) := by
  have hwf := wellFormed_adjacency_list ea ws n
  obtain ⟨st, _, h2, h3, h4⟩ := dijkstra_run_ok _ s hwf hnn hun hs
  refine ⟨st.d, st.p, h2, ?_⟩
  intro u v w he ht
  have hp : st.pred v = u := by simpa [tree_edge, State.pred] using ht
  obtain ⟨f1, f2⟩ := final_tree_edge _ s st hwf hnn hun h3 h4 u v w he hp
  refine ⟨fun huv => ?_, f2⟩
  obtain ⟨r1, r2, r3, r4⟩ := f1 huv
  exact ⟨(final_reachable _ s st hwf hnn hun h3 h4 u r1).2,
    (final_reachable _ s st hwf hnn hun h3 h4 v r2).2, r3, r4⟩

/-- Witness of C7 (amended) on the graph of `main` with source 0. -/
theorem tree_edge_sound_witness :
    NonNegative main_graph ∧ Unsaturated main_graph 0 ∧ 0 < num_vertices main_graph ∧
    ∃ d p, solve main_graph 0 = Outcome.ok (d, p) ∧
      ∀ u v w, (u, v, w) ∈ edges main_graph → tree_edge p u v = true →
        (u ≠ v →
          IsShortest main_graph 0 u (d.getD u 0)
          ∧ IsShortest main_graph 0 v (d.getD v 0)
          ∧ d.getD v 0 ≤ d.getD u 0 + w
          ∧ ∃ w2, (u, v, w2) ∈ edges main_graph ∧ d.getD u 0 + w2 = d.getD v 0)
        ∧ (u = v → v = 0 ∨ ¬ Reachable main_graph 0 v) :=
  ⟨nonNegative_main_graph, unsaturated_main_graph, by decide,
    tree_edge_sound edge_array weights_v num_nodes 0 nonNegative_main_graph
      unsaturated_main_graph (by decide)⟩

/-- C7 as stated fails: on the graph with the self-loop (0,0) of weight 1 and
two parallel edges (0,1) of weights 1 and 2, source 0, the exporter marks the
self-loop and the heavier parallel edge as tree edges although distance[0] + 1
differs from distance[0] and distance[0] + 2 differs from distance[1]. -/
theorem tree_edge_not_on_shortest_path :
    NonNegative (adjacency_list [(0, 0), (0, 1), (0, 1)] [1, 1, 2] 2) ∧
    ∃ d p, solve (adjacency_list [(0, 0), (0, 1), (0, 1)] [1, 1, 2] 2) 0 = Outcome.ok (d, p) ∧
      (0, 0, 1) ∈ edges (adjacency_list [(0, 0), (0, 1), (0, 1)] [1, 1, 2] 2) ∧
      tree_edge p 0 0 = true ∧ d.getD 0 0 + 1 ≠ d.getD 0 0 ∧
      (0, 1, 2) ∈ edges (adjacency_list [(0, 0), (0, 1), (0, 1)] [1, 1, 2] 2) ∧
      tree_edge p 0 1 = true ∧ d.getD 0 0 + 2 ≠ d.getD 1 0 := by
  refine ⟨by unfold NonNegative; decide, [0, 1], [0, 0], by decide, by decide, by decide,
    by decide, by decide, by decide, by decide⟩

/-! ## The exporter -/

/-- C6: for every graph (with its weights) and predecessor vector, the edge
loop of the exporter writes exactly one declaration per edge of the graph, in
the order of `edges(g)`; the declaration of the edge (u,v) of weight w carries
u, v and w, and is coloured black if and only if predecessor[v] == u, grey
otherwise; the file is the header, these declarations and the closing brace. -/
theorem export_one_declaration_per_edge (g : Graph) (p : List Nat) :
    (dot_edges g p).length = (edges g).length
    ∧ (∀ (i u v : Nat) (w : Int), (edges g)[i]? = some (u, v, w) →
        (dot_edges g p)[i]? = some (toString u ++ " -> " ++ toString v ++ "[label=\""
          ++ toString w ++ "\""
          ++ (if p.getD v 0 = u then ", color=\"black\"" else ", color=\"grey\"") ++ "]"))
    ∧ dot_file g p = dot_header ++ String.join (dot_edges g p) ++ "\x7d" := by
  refine ⟨by simp [dot_edges], ?_, rfl⟩
  intro i u v w h
  simp [dot_edges, List.getElem?_map, h, edge_decl, tree_edge]

/-- C8: on the fixed graph of `main` with source 0 the exporter marks the edge
(0,3) as a tree edge; over the five edges it marks (0,3), (3,4), (4,5) and
(5,2) as tree edges and (2,5) as a non-tree edge. -/
theorem export_main_scenario :
    ∃ d p, solve main_graph 0 = Outcome.ok (d, p) ∧
      tree_edge p 0 3 = true ∧
      (edges main_graph).map (fun e => (e.1, e.2.1, tree_edge p e.1 e.2.1))
        = [(0, 3, true), (2, 5, false), (3, 4, true), (4, 5, true), (5, 2, true)] ∧
      dot_edges main_graph p
        = ["0 -> 3[label=\"1\", color=\"black\"]", "2 -> 5[label=\"1\", color=\"grey\"]",
           "3 -> 4[label=\"1\", color=\"black\"]", "4 -> 5[label=\"1\", color=\"black\"]",
           "5 -> 2[label=\"1\", color=\"black\"]"] :=
  ⟨_, _, solve_main_graph, by decide, by decide, by decide⟩

theorem edgesFrom_eq (ls : List (List (Nat × Int))) (k : Nat) :
    edgesFrom k ls = (List.range ls.length).flatMap
      (fun i => (ls.getD i []).map (fun e => (k + i, e.1, e.2))) := by
  induction ls generalizing k with
  | nil => simp [edgesFrom]
  | cons l rest ih =>
    rw [edgesFrom, ih, List.length_cons, List.range_succ_eq_map, List.flatMap_cons,
      List.flatMap_map]
    simp only [List.getD_cons_zero, Nat.add_zero, List.getD_cons_succ]
    congr 1
    apply List.flatMap_congr
    intro i _
    have : k + 1 + i = k + (i + 1) := by omega
    rw [this]

theorem edges_eq (g : Graph) :
    edges g = (List.range (num_vertices g)).flatMap
      (fun u => (out_edges g u).map (fun e => (u, e.1, e.2))) := by
  simp [edges, edgesFrom_eq, num_vertices, out_edges]

/-- C10: for every constructed graph the exporter writes the edges grouped by
source vertex in ascending vertex order, and the edges leaving one vertex in
the order in which the input edge array gives them; for the fixed graph of
`main` the emitted order is (0,3), (2,5), (3,4), (4,5), (5,2). -/
theorem export_edge_order (ea : List (Nat × Nat)) (ws : List Int) (n : Nat) (p : List Nat) :
    dot_edges (adjacency_list ea ws n) p =
      ((List.range (num_vertices (adjacency_list ea ws n))).flatMap
        (fun u => ((ea.zip ws).filter (fun e => e.1.1 = u)).map
          (fun e => (u, e.1.2, e.2)))).map (edge_decl p)
    ∧ (edges main_graph).map (fun e => (e.1, e.2.1)) = [(0, 3), (2, 5), (3, 4), (4, 5), (5, 2)] := by
  refine ⟨?_, by decide⟩
  rw [dot_edges, edges_eq]
  congr 1
  apply List.flatMap_congr
  intro u _
  rw [out_edges_adjacency_list, List.map_map]
  rfl

/-! ## Decimal numerals -/

theorem digitChar_toNat (k : Nat) (h : k < 10) : (Nat.digitChar k).toNat - 48 = k := by
  interval_cases k <;> rfl

theorem digitChar_isDigit (k : Nat) (h : k < 10) : (Nat.digitChar k).isDigit = true := by
  interval_cases k <;> rfl

theorem value_toDigitsCore : ∀ (fuel n : Nat) (ds : List Char), n < fuel →
    digits_value (Nat.toDigitsCore 10 fuel n ds) 0 = digits_value ds n := by
  intro fuel
  induction fuel with
  | zero => intro n ds h; omega
  | succ fuel ih =>
    intro n ds h
    unfold Nat.toDigitsCore
    simp only
    have hd := digitChar_toNat (n % 10) (Nat.mod_lt _ (by decide))
    by_cases h0 : n / 10 = 0
    · rw [if_pos h0]
      simp only [digits_value, List.foldl_cons, hd]
      have : n % 10 = n := by omega
      rw [this]
      simp
    · rw [if_neg h0, ih (n / 10) _ (by omega)]
      simp only [digits_value, List.foldl_cons, hd]
      have : 10 * (n / 10) + n % 10 = n := by omega
      rw [this]

theorem toDigits_injective (a b : Nat) (h : Nat.toDigits 10 a = Nat.toDigits 10 b) : a = b := by
  have ha := value_toDigitsCore (a + 1) a [] (by omega)
  have hb := value_toDigitsCore (b + 1) b [] (by omega)
  unfold Nat.toDigits at h
  rw [h, hb] at ha
  simpa [digits_value] using ha.symm

theorem isDigit_toDigitsCore : ∀ (fuel n : Nat) (ds : List Char),
    (∀ c ∈ ds, c.isDigit = true) → ∀ c ∈ Nat.toDigitsCore 10 fuel n ds, c.isDigit = true := by
  intro fuel
  induction fuel with
  | zero => intro n ds h c hc; exact h c (by simpa [Nat.toDigitsCore] using hc)
  | succ fuel ih =>
    intro n ds h c hc
    unfold Nat.toDigitsCore at hc
    simp only at hc
    have hd := digitChar_isDigit (n % 10) (Nat.mod_lt _ (by decide))
    have hds : ∀ c ∈ Nat.digitChar (n % 10) :: ds, c.isDigit = true := by
      intro c hc
      rcases List.mem_cons.mp hc with rfl | hc
      · exact hd
      · exact h c hc
    by_cases h0 : n / 10 = 0
    · rw [if_pos h0] at hc; exact hds c hc
    · rw [if_neg h0] at hc; exact ih _ _ hds c hc

theorem toDigitsCore_ne_nil : ∀ (fuel n : Nat) (ds : List Char), ds ≠ [] →
    Nat.toDigitsCore 10 fuel n ds ≠ [] := by
  intro fuel
  induction fuel with
  | zero => intro n ds h; simpa [Nat.toDigitsCore] using h
  | succ fuel ih =>
    intro n ds h
    unfold Nat.toDigitsCore
    simp only
    by_cases h0 : n / 10 = 0
    · rw [if_pos h0]; simp
    · rw [if_neg h0]; exact ih _ _ (by simp)

theorem isDigit_toDigits (n : Nat) : ∀ c ∈ Nat.toDigits 10 n, c.isDigit = true :=
  isDigit_toDigitsCore (n + 1) n [] (by simp)

theorem toDigits_ne_nil (n : Nat) : Nat.toDigits 10 n ≠ [] := by
  unfold Nat.toDigits Nat.toDigitsCore
  simp only
  by_cases h0 : n / 10 = 0
  · rw [if_pos h0]; simp
  · rw [if_neg h0]; exact toDigitsCore_ne_nil _ _ _ (by simp)

/-- Two texts that start with a numeral followed by a character that is not a
digit agree only if the numerals and the remainders agree. -/
theorem digits_split (a b : List Char) (cx cy : Char) (x y : List Char)
    (ha : ∀ c ∈ a, c.isDigit = true) (hb : ∀ c ∈ b, c.isDigit = true)
    (hcx : cx.isDigit = false) (hcy : cy.isDigit = false)
    (h : a ++ cx :: x = b ++ cy :: y) : a = b ∧ cx :: x = cy :: y := by
  induction a generalizing b with
  | nil =>
    cases b with
    | nil => exact ⟨rfl, by simpa using h⟩
    | cons d b =>
      simp only [List.nil_append, List.cons_append, List.cons.injEq] at h
      have := hb d (List.mem_cons_self _ _)
      rw [← h.1, hcx] at this
      exact absurd this (by simp)
  | cons c a ih =>
    cases b with
    | nil =>
      simp only [List.nil_append, List.cons_append, List.cons.injEq] at h
      have := ha c (List.mem_cons_self _ _)
      rw [h.1, hcy] at this
      exact absurd this (by simp)
    | cons d b =>
      simp only [List.cons_append, List.cons.injEq] at h
      obtain ⟨h1, h2⟩ := ih b (fun c hc => ha c (List.mem_cons_of_mem _ hc))
        (fun c hc => hb c (List.mem_cons_of_mem _ hc)) h.2
      exact ⟨by rw [h.1, h1], h2⟩

theorem data_toString_nat (n : Nat) : (toString n).data = Nat.toDigits 10 n := rfl

theorem data_toString_int (w : Int) :
    (toString w).data = match w with
      | Int.ofNat m => Nat.toDigits 10 m
      | Int.negSucc m => '-' :: Nat.toDigits 10 (m + 1) := by
  cases w <;> rfl

/-- The same for a signed numeral. -/
theorem int_split (w1 w2 : Int) (cx cy : Char) (x y : List Char)
    (hcx : cx.isDigit = false) (hcy : cy.isDigit = false)
    (h : (toString w1).data ++ cx :: x = (toString w2).data ++ cy :: y) :
    w1 = w2 ∧ cx :: x = cy :: y := by
  rw [data_toString_int, data_toString_int] at h
  cases w1 with
  | ofNat m1 =>
    cases w2 with
    | ofNat m2 =>
      simp only at h
      obtain ⟨h1, h2⟩ := digits_split _ _ cx cy x y (isDigit_toDigits m1) (isDigit_toDigits m2)
        hcx hcy h
      exact ⟨by rw [toDigits_injective _ _ h1], h2⟩
    | negSucc m2 =>
      exfalso
      simp only at h
      cases hd : Nat.toDigits 10 m1 with
      | nil => exact toDigits_ne_nil m1 hd
      | cons c t =>
        rw [hd] at h
        simp only [List.cons_append, List.cons.injEq] at h
        have := isDigit_toDigits m1 c (by rw [hd]; exact List.mem_cons_self _ _)
        rw [h.1] at this
        exact absurd this (by decide)
  | negSucc m1 =>
    cases w2 with
    | ofNat m2 =>
      exfalso
      simp only at h
      cases hd : Nat.toDigits 10 m2 with
      | nil => exact toDigits_ne_nil m2 hd
      | cons c t =>
        rw [hd] at h
        simp only [List.cons_append, List.cons.injEq] at h
        have := isDigit_toDigits m2 c (by rw [hd]; exact List.mem_cons_self _ _)
        rw [← h.1] at this
        exact absurd this (by decide)
    | negSucc m2 =>
      simp only [List.cons_append, List.cons.injEq, true_and] at h
      obtain ⟨h1, h2⟩ := digits_split _ _ cx cy x y (isDigit_toDigits _) (isDigit_toDigits _)
        hcx hcy h
      have := toDigits_injective _ _ h1
      exact ⟨by rw [show m1 = m2 by omega], h2⟩

theorem edge_decl_data (p : List Nat) (e : Nat × Nat × Int) (rest : List Char) :
    (edge_decl p e).data ++ rest =
      Nat.toDigits 10 e.1 ++ ' ' :: ('-' :: '>' :: ' ' :: (Nat.toDigits 10 e.2.1 ++
        '[' :: ('l' :: 'a' :: 'b' :: 'e' :: 'l' :: '=' :: '"' :: ((toString e.2.2).data ++
          '"' :: ((if tree_edge p e.1 e.2.1 then ", color=\"black\"]".data
            else ", color=\"grey\"]".data) ++ rest))))) := by
  unfold edge_decl
  simp only [String.data_append, data_toString_nat, List.append_assoc]
  by_cases h : tree_edge p e.1 e.2.1 = true
  · simp only [h, if_true]; rfl
  · simp only [h]; rfl

theorem edge_decl_data_ne_nil (p : List Nat) (e : Nat × Nat × Int) :
    (edge_decl p e).data ≠ [] := by
  intro h
  have h2 := edge_decl_data p e []
  rw [h] at h2
  cases hd : Nat.toDigits 10 e.1 with
  | nil => exact toDigits_ne_nil _ hd
  | cons c t => rw [hd] at h2; simp at h2

/-- A declaration at the head of a text determines its edge, its colour and
the rest of the text. -/
theorem edge_decl_inj (p p2 : List Nat) (e e2 : Nat × Nat × Int) (rest rest2 : List Char)
    (h : (edge_decl p e).data ++ rest = (edge_decl p2 e2).data ++ rest2) :
    e = e2 ∧ tree_edge p e.1 e.2.1 = tree_edge p2 e2.1 e2.2.1 ∧ rest = rest2 := by
  rw [edge_decl_data, edge_decl_data] at h
  obtain ⟨hu, h⟩ := digits_split _ _ _ _ _ _ (isDigit_toDigits _) (isDigit_toDigits _)
    (by decide) (by decide) h
  simp only [List.cons.injEq, true_and] at h
  obtain ⟨hv, h⟩ := digits_split _ _ _ _ _ _ (isDigit_toDigits _) (isDigit_toDigits _)
    (by decide) (by decide) h
  simp only [List.cons.injEq, true_and] at h
  obtain ⟨hw, h⟩ := int_split _ _ _ _ _ _ (by decide) (by decide) h
  simp only [List.cons.injEq, true_and] at h
  have hu2 := toDigits_injective _ _ hu
  have hv2 := toDigits_injective _ _ hv
  have he : e = e2 := by
    obtain ⟨a, b, c⟩ := e
    obtain ⟨a2, b2, c2⟩ := e2
    simp only at hu2 hv2 hw
    rw [hu2, hv2, hw]
  refine ⟨he, ?_⟩
  cases h1 : tree_edge p e.1 e.2.1 <;> cases h2 : tree_edge p2 e2.1 e2.2.1
  · rw [h1, h2] at h
    exact ⟨rfl, by simpa using h⟩
  · rw [h1, h2] at h
    exfalso
    revert h
    simp
  · rw [h1, h2] at h
    exfalso
    revert h
    simp
  · rw [h1, h2] at h
    exact ⟨rfl, by simpa using h⟩

/-- The text of a sequence of declarations determines the edges and their
colours. -/
theorem edge_stream_inj (p p2 : List Nat) :
    ∀ (es es2 : List (Nat × Nat × Int)),
      (es.map (fun e => (edge_decl p e).data)).flatten
        = (es2.map (fun e => (edge_decl p2 e).data)).flatten →
      es = es2 ∧ es.map (fun e => tree_edge p e.1 e.2.1)
        = es2.map (fun e => tree_edge p2 e.1 e.2.1) := by
  intro es
  induction es with
  | nil =>
    intro es2 h
    cases es2 with
    | nil => exact ⟨rfl, rfl⟩
    | cons e2 es2 =>
      exfalso
      simp only [List.map_nil, List.flatten_nil, List.map_cons, List.flatten_cons] at h
      have := edge_decl_data_ne_nil p2 e2
      cases hd : (edge_decl p2 e2).data with
      | nil => exact this hd
      | cons c t => rw [hd] at h; simp at h
  | cons e es ih =>
    intro es2 h
    cases es2 with
    | nil =>
      exfalso
      simp only [List.map_nil, List.flatten_nil, List.map_cons, List.flatten_cons] at h
      have := edge_decl_data_ne_nil p e
      cases hd : (edge_decl p e).data with
      | nil => exact this hd
      | cons c t => rw [hd] at h; simp at h
    | cons e2 es2 =>
      simp only [List.map_cons, List.flatten_cons] at h
      obtain ⟨h1, h2, h3⟩ := edge_decl_inj p p2 e e2 _ _ h
      obtain ⟨h4, h5⟩ := ih es2 h3
      exact ⟨by rw [h1, h4], by simp only [List.map_cons]; rw [h2, h5]⟩

theorem edge_decl_no_newline (p : List Nat) (e : Nat × Nat × Int) :
    ∀ c ∈ (edge_decl p e).data, c ≠ '\n' := by
  intro c hc
  have h := edge_decl_data p e []
  rw [List.append_nil] at h
  rw [h] at hc
  have hdig : ∀ n, c ∈ Nat.toDigits 10 n → c ≠ '\n' := by
    intro n hn hcn
    have := isDigit_toDigits n c hn
    rw [hcn] at this
    exact absurd this (by decide)
  have hint : c ∈ (toString e.2.2).data → c ≠ '\n' := by
    rw [data_toString_int]
    cases e.2.2 with
    | ofNat m => exact hdig m
    | negSucc m =>
      intro hm
      rcases List.mem_cons.mp hm with rfl | hm
      · decide
      · exact hdig _ hm
  have hcol : c ∈ (if tree_edge p e.1 e.2.1 then ", color=\"black\"]".data
      else ", color=\"grey\"]".data) ++ [] → c ≠ '\n' := by
    rw [List.append_nil]
    by_cases ht : tree_edge p e.1 e.2.1 = true
    · rw [if_pos ht]
      intro hm
      have : ∀ x ∈ ", color=\"black\"]".data, x ≠ '\n' := by decide
      exact this c hm
    · rw [if_neg ht]
      intro hm
      have : ∀ x ∈ ", color=\"grey\"]".data, x ≠ '\n' := by decide
      exact this c hm
  simp only [List.mem_append, List.mem_cons] at hc hcol
  rcases hc with hc | rfl | rfl | rfl | rfl | hc | rfl | rfl | rfl | rfl | rfl | rfl | rfl | rfl
      | hc | rfl | hc
  · exact hdig _ hc
  all_goals first
    | decide
    | exact hdig _ hc
    | exact hint hc
    | exact hcol hc

/-- C9 (amended): the exported edge section is not line-oriented. For every
graph with k edges it is the concatenation, without any separator, of exactly
k declarations, one per edge in the order of `edges(g)`; it contains no line
break at all; and the text determines, for every edge, its source, target,
weight and tree-membership: two edge sections that agree come from the same
edges with the same tree marks. -/
theorem edge_section_single_line (g : Graph) (p : List Nat) :
    (dot_edges g p).length = (edges g).length
    ∧ edge_section g p = String.join ((edges g).map (edge_decl p))
    ∧ (∀ c ∈ (edge_section g p).data, c ≠ '\n')
    ∧ (∀ (g2 : Graph) (p2 : List Nat), edge_section g2 p2 = edge_section g p →
        edges g2 = edges g ∧
        (edges g2).map (fun e => tree_edge p2 e.1 e.2.1)
          = (edges g).map (fun e => tree_edge p e.1 e.2.1)) := by
  refine ⟨by simp [dot_edges], rfl, ?_, ?_⟩
  · intro c hc
    simp only [edge_section, dot_edges, String.data_join, List.map_map, List.mem_flatten,
      List.mem_map, Function.comp] at hc
    obtain ⟨l, ⟨e, _, rfl⟩, hcl⟩ := hc
    exact edge_decl_no_newline p e c hcl
  · intro g2 p2 h
    have h2 := congrArg String.data h
    simp only [edge_section, dot_edges, String.data_join, List.map_map] at h2
    exact edge_stream_inj p2 p (edges g2) (edges g) h2

/-- C9 as stated fails: for the graph of `main`, which has five edges, the
edge section written by the exporter is one line holding all five
declarations; it contains no newline character. -/
theorem edge_section_main_one_line :
    ∃ d p, solve main_graph 0 = Outcome.ok (d, p) ∧ (edges main_graph).length = 5 ∧
      edge_section main_graph p =
        "0 -> 3[label=\"1\", color=\"black\"]2 -> 5[label=\"1\", color=\"grey\"]"
          ++ "3 -> 4[label=\"1\", color=\"black\"]4 -> 5[label=\"1\", color=\"black\"]"
          ++ "5 -> 2[label=\"1\", color=\"black\"]" ∧
      (edge_section main_graph p).data.count '\n' = 0 :=
  ⟨_, _, solve_main_graph, by decide, by decide, by decide⟩

/-! ## The visit without assumptions on the weights -/

theorem init_col (g : Graph) (s : Nat) (hs : s < num_vertices g) (x : Nat) :
    (dijkstra_init g s).col x = if x = s then Color.gray else Color.white := by
  unfold State.col dijkstra_init
  by_cases h : x = s
  · subst h
    rw [if_pos rfl]
    exact getD_set_self _ _ _ _ (by simpa using hs)
  · rw [if_neg h, getD_set_ne _ _ _ _ _ (Ne.symm h)]
    simp only [List.getD_eq_getElem?_getD, List.getElem?_replicate]
    split <;> simp

/-- The state set up by `dijkstra_shortest_paths` satisfies the colour
invariant. -/
theorem visit_init (g : Graph) (s : Nat) (hs : s < num_vertices g) :
    VisitInv g s (dijkstra_init g s) := by
  obtain ⟨rank, C⟩ := inv_init g s hs
  exact
    { len_d := C.len_d
      len_p := C.len_p
      len_c := C.len_c
      q_nodup := C.q_nodup
      q_mem := C.q_mem
      src := C.src.1
      white := C.white
      seen := fun v hv => ⟨_, (C.seen v hv).2⟩
      closed := by
        intro u v w hu
        rw [init_col g s hs] at hu
        split at hu <;> simp at hu }

theorem visit_extract (g : Graph) (s : Nat) (st : State) (u : Nat)
    (hinv : VisitInv g s st) (htop : Q_top st.d st.Q = some u) :
    VisitMid g s { st with Q := st.Q.erase u } u [] := by
  obtain ⟨huQ, _⟩ := Q_top_min _ _ _ htop
  have hug := (hinv.q_mem u).1 huQ
  refine ⟨?_, hug.1, by simp⟩
  exact
    { len_d := hinv.len_d
      len_p := hinv.len_p
      len_c := hinv.len_c
      q_nodup := hinv.q_nodup.erase u
      q_mem := by
        intro x
        show x ∈ st.Q.erase u ↔ _
        rw [hinv.q_nodup.mem_erase_iff, hinv.q_mem]
        constructor
        · rintro ⟨h1, h2, h3⟩
          exact ⟨h2, fun h => h.elim h3 h1⟩
        · rintro ⟨h1, h2⟩
          exact ⟨fun h => h2 (Or.inr h), h1, fun h => h2 (Or.inl h)⟩
      src := hinv.src
      white := hinv.white
      seen := hinv.seen
      closed := hinv.closed }

/-- The loop body on one out-edge that passes the negative-weight test keeps
the colour invariant. -/
theorem visit_edge_step (g : Graph) (s : Nat) (st : State) (u v : Nat) (w : Int)
    (done : List (Nat × Int)) (hwf : WellFormed g)
    (hm : VisitMid g s st u done) (he : (u, v, w) ∈ edges g) (hw : 0 ≤ w) :
    VisitMid g s (visit_edge u (v, w) st) u ((v, w) :: done) := by
  obtain ⟨C, hu, hdone⟩ := hm
  have hvN : v < num_vertices g := (hwf u v w he).2
  obtain ⟨s1, s2, s3, _, s5, s6, s7, s8⟩ := visit_edge_spec u v w st
    (by rw [C.len_d]; exact hvN) (by rw [C.len_p]; exact hvN) (by rw [C.len_c]; exact hvN)
  have hblack : ∀ x, (visit_edge u (v, w) st).col x = Color.black ↔ st.col x = Color.black := by
    intro x
    rw [s6]
    by_cases h : x = v ∧ st.col v = Color.white
    · rw [if_pos h, h.1, h.2]; simp
    · rw [if_neg h]
  have hfin : (fun x => (visit_edge u (v, w) st).col x = Color.black ∨ x = u)
      = (fun x => st.col x = Color.black ∨ x = u) := by
    funext x
    rw [hblack]
  have hnw : ∀ x, st.col x ≠ Color.white → (visit_edge u (v, w) st).col x ≠ Color.white := by
    intro x hx
    rw [s6]
    by_cases h : x = v ∧ st.col v = Color.white
    · rw [if_pos h]; simp
    · rw [if_neg h]; exact hx
  have hur : Reachable g s u := C.seen u (by rw [hu]; simp)
  refine ⟨?_, ?_, ?_⟩
  · rw [hfin]
    constructor
    · rw [s1, C.len_d]
    · rw [s2, C.len_p]
    · rw [s3, C.len_c]
    · rw [s5]
      by_cases h : st.col v = Color.white
      · rw [if_pos h]
        refine List.Nodup.append C.q_nodup (List.nodup_singleton v) ?_
        intro x hx hx2
        rw [List.mem_singleton] at hx2
        subst hx2
        have := ((C.q_mem x).1 hx).1
        rw [h] at this
        exact absurd this (by simp)
      · rw [if_neg h]; exact C.q_nodup
    · intro x
      rw [s5, s6]
      by_cases h : st.col v = Color.white
      · rw [if_pos h, List.mem_append, List.mem_singleton, C.q_mem]
        by_cases hx : x = v
        · subst hx
          have h3 : ¬ (st.col x = Color.black ∨ x = u) := by
            rintro (h4 | h4)
            · rw [h] at h4; exact absurd h4 (by simp)
            · rw [h4, hu] at h; exact absurd h (by simp)
          simp only [true_and, h, if_true, or_true, true_iff]
          rw [h] at h3
          exact h3
        · simp [hx]
      · rw [if_neg h, C.q_mem, if_neg (fun h2 => h h2.2)]
    · exact hnw s C.src
    · intro x hxN hx
      rw [s6] at hx
      by_cases h : x = v ∧ st.col v = Color.white
      · rw [if_pos h] at hx; exact absurd hx (by simp)
      · rw [if_neg h] at hx
        have hxv : x ≠ v := fun h2 => h ⟨h2, h2 ▸ hx⟩
        rw [s7, s8, if_neg (fun h2 => hxv h2.1), if_neg (fun h2 => hxv h2.1)]
        exact C.white x hxN hx
    · intro x hx
      rw [s6] at hx
      by_cases h : x = v ∧ st.col v = Color.white
      · rw [h.1]
        obtain ⟨k, hk⟩ := hur
        exact ⟨_, Path.snoc hk he⟩
      · rw [if_neg h] at hx; exact C.seen x hx
    · intro b y w2 hb hby
      rw [hblack] at hb
      obtain ⟨c1, c2⟩ := C.closed b y w2 hb hby
      exact ⟨hnw y c1, c2⟩
  · rw [s6]
    by_cases h : u = v ∧ st.col v = Color.white
    · rw [if_pos h]
    · rw [if_neg h]; exact hu
  · intro e hmem
    rcases List.mem_cons.mp hmem with rfl | hmem
    · refine ⟨?_, hw⟩
      show (visit_edge u (v, w) st).col v ≠ Color.white
      rw [s6]
      by_cases h : v = v ∧ st.col v = Color.white
      · rw [if_pos h]; simp
      · rw [if_neg h]; exact fun h2 => h ⟨rfl, h2⟩
    · exact ⟨hnw _ (hdone e hmem).1, (hdone e hmem).2⟩

/-- The out-edge loop either visits every edge, keeping the colour invariant,
or throws on an out-edge of negative weight. -/
theorem visit_out_edge_loop (g : Graph) (s u : Nat) (hwf : WellFormed g) :
    ∀ (es : List (Nat × Int)) (st : State) (done : List (Nat × Int)),
      VisitMid g s st u done → (∀ e ∈ es, (u, e.1, e.2) ∈ edges g) →
      (∃ st2, out_edge_loop u es st = Outcome.ok st2 ∧ VisitMid g s st2 u (es.reverse ++ done)
        ∧ st2.blackCount = st.blackCount)
      ∨ (out_edge_loop u es st = Outcome.negative_edge ∧ ∃ e ∈ es, e.2 < 0) := by
  intro es
  induction es with
  | nil =>
    intro st done hm _
    left
    exact ⟨st, rfl, by simpa using hm, rfl⟩
  | cons e es ih =>
    intro st done hm hes
    have he := hes e (List.mem_cons_self _ _)
    by_cases hw : e.2 < 0
    · right
      refine ⟨?_, e, List.mem_cons_self _ _, hw⟩
      simp only [out_edge_loop, if_pos hw]
    · have hstep := visit_edge_step g s st u e.1 e.2 done hwf hm he (not_lt.mp hw)
      have hcnt : (visit_edge u e st).blackCount = st.blackCount := by
        obtain ⟨C, _⟩ := hm
        have hvN : e.1 < num_vertices g := (hwf u e.1 e.2 he).2
        exact (visit_edge_spec u e.1 e.2 st (by rw [C.len_d]; exact hvN)
          (by rw [C.len_p]; exact hvN) (by rw [C.len_c]; exact hvN)).2.2.2.1
      rcases ih (visit_edge u e st) (e :: done) hstep
        (fun e2 he2 => hes e2 (List.mem_cons_of_mem _ he2)) with ⟨st2, h1, h2, h3⟩ | ⟨h1, e2, h2, h3⟩
      · left
        refine ⟨st2, ?_, by simpa using h2, by rw [h3, hcnt]⟩
        simp only [out_edge_loop, if_neg hw]
        exact h1
      · right
        refine ⟨?_, e2, List.mem_cons_of_mem _ h2, h3⟩
        simp only [out_edge_loop, if_neg hw]
        exact h1

theorem visit_finish (g : Graph) (s : Nat) (st : State) (u : Nat)
    (hm : VisitMid g s st u ((out_edges g u).reverse ++ [])) :
    VisitInv g s { st with color := st.color.set u Color.black }
    ∧ State.blackCount { st with color := st.color.set u Color.black } = st.blackCount + 1 := by
  obtain ⟨C, hu, hdone⟩ := hm
  have huN : u < st.color.length := col_ne_white_lt st u (by rw [hu]; simp)
  have hcol := col_set_black st u
  have hcnt : State.blackCount { st with color := st.color.set u Color.black }
      = st.blackCount + 1 := by
    refine count_set_new _ _ _ huN ?_
    have h1 : st.color.getD u Color.black = st.col u := by
      simp [State.col, List.getD_eq_getElem?_getD, List.getElem?_eq_getElem huN]
    rw [h1, hu]; simp
  have hfin : (fun x => State.col { st with color := st.color.set u Color.black } x = Color.black)
      = (fun x => st.col x = Color.black ∨ x = u) := by
    funext x
    rw [hcol x huN]
    by_cases h : x = u
    · simp [h]
    · simp [h]
  have hnw : ∀ x, State.col { st with color := st.color.set u Color.black } x ≠ Color.white ↔
      st.col x ≠ Color.white := by
    intro x
    rw [hcol x huN]
    by_cases h : x = u
    · rw [if_pos h, h, hu]; simp
    · rw [if_neg h]
  refine ⟨?_, hcnt⟩
  unfold VisitInv
  rw [hfin]
  constructor
  · exact C.len_d
  · exact C.len_p
  · show (st.color.set u Color.black).length = _
    rw [List.length_set]; exact C.len_c
  · exact C.q_nodup
  · intro x
    rw [hcol x huN]
    show x ∈ st.Q ↔ _
    rw [C.q_mem]
    by_cases h : x = u
    · simp [h]
    · simp [h]
  · exact (hnw s).2 C.src
  · intro x hxN hx
    rw [hcol x huN] at hx
    by_cases h : x = u
    · rw [if_pos h] at hx; exact absurd hx (by simp)
    · rw [if_neg h] at hx; exact C.white x hxN hx
  · intro x hx
    exact C.seen x ((hnw x).1 hx)
  · intro b y w hb hby
    rw [hcol b huN] at hb
    rw [hnw]
    by_cases h : b = u
    · subst h
      have hmem : (y, w) ∈ (out_edges g b).reverse ++ [] := by
        simpa using (mem_edges g b y w).1 hby
      exact hdone (y, w) hmem
    · rw [if_neg h] at hb
      exact C.closed b y w hb hby

theorem visit_all_black (g : Graph) (s : Nat) (st : State) (hinv : VisitInv g s st)
    (h : num_vertices g ≤ st.blackCount) : st.Q = [] := by
  have hle := List.count_le_length Color.black st.color
  have heq : List.count Color.black st.color = st.color.length := by
    have : st.color.length = num_vertices g := hinv.len_c
    unfold State.blackCount at h
    omega
  rw [List.count_eq_length] at heq
  cases hQ : st.Q with
  | nil => rfl
  | cons x q =>
    exfalso
    have hx : x ∈ st.Q := by rw [hQ]; exact List.mem_cons_self _ _
    obtain ⟨h1, h2⟩ := (hinv.q_mem x).1 hx
    have hxN : x < st.color.length := col_ne_white_lt st x (by rw [h1]; simp)
    have h3 : st.col x = st.color[x] := by
      simp [State.col, List.getD_eq_getElem?_getD, List.getElem?_eq_getElem hxN]
    have h4 := heq (st.color[x]) (List.getElem_mem hxN)
    rw [← h3, h1] at h4
    exact absurd h4 (by simp)

/-- For every graph the `while` loop ends within one iteration per vertex that
is not yet black: either normally, with the colour invariant and an empty
queue, or with `negative_edge` thrown on an edge of negative weight that leaves
a vertex reachable from the source. -/
theorem visit_run (g : Graph) (s : Nat) (hwf : WellFormed g) :
    ∀ (fuel : Nat) (st : State), VisitInv g s st → num_vertices g ≤ fuel + st.blackCount →
      (∃ st2, breadth_first_visit g fuel st = Outcome.ok st2 ∧ VisitInv g s st2 ∧ st2.Q = [])
      ∨ (breadth_first_visit g fuel st = Outcome.negative_edge
          ∧ ∃ u v w, (u, v, w) ∈ edges g ∧ w < 0 ∧ Reachable g s u) := by
  intro fuel
  induction fuel with
  | zero =>
    intro st hinv hf
    have hQ := visit_all_black g s st hinv (by omega)
    left
    refine ⟨st, ?_, hinv, hQ⟩
    simp [breadth_first_visit, hQ, Q_top]
  | succ fuel ih =>
    intro st hinv hf
    cases htop : Q_top st.d st.Q with
    | none =>
      left
      refine ⟨st, ?_, hinv, (Q_top_eq_none _ _).1 htop⟩
      simp [breadth_first_visit, htop]
    | some u =>
      have hmid := visit_extract g s st u hinv htop
      have hur : Reachable g s u := hmid.1.seen u (by rw [hmid.2.1]; simp)
      rcases visit_out_edge_loop g s u hwf (out_edges g u) _ [] hmid
        (fun e he => (mem_edges g u e.1 e.2).2 he) with ⟨st1, h1, h2, h3⟩ | ⟨h1, e, h2, h3⟩
      · obtain ⟨f1, f2⟩ := visit_finish g s st1 u h2
        have hcnt : State.blackCount { st1 with color := st1.color.set u Color.black }
            = st.blackCount + 1 := by
          rw [f2, h3]; rfl
        rcases ih _ f1 (by omega) with ⟨st2, h4, h5, h6⟩ | ⟨h4, h5⟩
        · left
          refine ⟨st2, ?_, h5, h6⟩
          simp only [breadth_first_visit, htop, h1]
          exact h4
        · right
          refine ⟨?_, h5⟩
          simp only [breadth_first_visit, htop, h1]
          exact h4
      · right
        refine ⟨?_, u, e.1, e.2, (mem_edges g u e.1 e.2).2 h2, h3, hur⟩
        simp only [breadth_first_visit, htop, h1]

/-- When the visit has ended normally every reachable vertex is black. -/
theorem visit_final_black (g : Graph) (s : Nat) (st : State)
    (hinv : VisitInv g s st) (hQ : st.Q = []) (v : Nat) (hr : Reachable g s v) :
    st.col v = Color.black := by
  have hng : ∀ x, st.col x ≠ Color.white → st.col x = Color.black := by
    intro x hx
    cases hcol : st.col x with
    | white => exact absurd hcol hx
    | gray =>
      have := (hinv.q_mem x).2 ⟨hcol, by rw [hcol]; simp⟩
      rw [hQ] at this
      simp at this
    | black => rfl
  obtain ⟨k, hk⟩ := hr
  induction hk with
  | nil => exact hng s hinv.src
  | @snoc x v w k _ he ih => exact hng v (hinv.closed x v w ih he).1

/-! ## The step relation -/

theorem getD_set_cases {α : Type} (l : List α) (i j : Nat) (a x : α) :
    (l.set i a).getD j x = l.getD j x ∨ (j = i ∧ (l.set i a).getD j x = a) := by
  by_cases h : i = j
  · subst h
    by_cases hl : i < l.length
    · right; exact ⟨rfl, getD_set_self _ _ _ _ hl⟩
    · left
      rw [getD_of_le _ _ _ (by simpa using hl), getD_of_le _ _ _ (by omega)]
  · left; exact getD_set_ne _ _ _ _ _ h

/-- What relaxing an edge can change, for any state: nothing, or the distance
and predecessor of the target, and then only to a strictly smaller distance. -/
theorem relax_frame (u v : Nat) (w : Int) (st : State) :
    (relax u v w st).color = st.color ∧ (relax u v w st).Q = st.Q
    ∧ (∀ x, (relax u v w st).dist x = st.dist x
        ∨ (x = v ∧ closed_plus (st.dist u) w < st.dist v
            ∧ (relax u v w st).dist x = closed_plus (st.dist u) w))
    ∧ (∀ x, (relax u v w st).pred x = st.pred x
        ∨ (x = v ∧ closed_plus (st.dist u) w < st.dist v ∧ (relax u v w st).pred x = u)) := by
  unfold relax
  by_cases h : closed_plus (st.dist u) w < st.dist v
  · simp only [h, if_true, true_and]
    constructor
    · intro x
      rcases getD_set_cases st.d v x (closed_plus (st.dist u) w) 0 with h1 | ⟨h1, h2⟩
      · left; exact h1
      · right; exact ⟨h1, h2⟩
    · intro x
      rcases getD_set_cases st.p v x u 0 with h1 | ⟨h1, h2⟩
      · left; exact h1
      · right; exact ⟨h1, h2⟩
  · simp [h]

/-- What the loop body can change on one out-edge, for any state. -/
theorem visit_edge_frame (u : Nat) (e : Nat × Int) (st : State) :
    (∀ x, (visit_edge u e st).col x = Color.black ↔ st.col x = Color.black)
    ∧ (∀ x, (visit_edge u e st).dist x = st.dist x
        ∨ (x = e.1 ∧ st.col x ≠ Color.black ∧ closed_plus (st.dist u) e.2 < st.dist x
            ∧ (visit_edge u e st).dist x = closed_plus (st.dist u) e.2))
    ∧ (∀ x, (visit_edge u e st).pred x = st.pred x
        ∨ (x = e.1 ∧ st.col x ≠ Color.black ∧ closed_plus (st.dist u) e.2 < st.dist x
            ∧ (visit_edge u e st).pred x = u)) := by
  obtain ⟨r1, r2, r3, r4⟩ := relax_frame u e.1 e.2 st
  unfold visit_edge
  cases hcol : st.col e.1 with
  | white =>
    refine ⟨?_, ?_, ?_⟩
    · intro x
      show (List.set _ e.1 Color.gray).getD x Color.white = Color.black ↔ _
      rw [r1]
      rcases getD_set_cases st.color e.1 x Color.gray Color.white with h1 | ⟨h1, h2⟩
      · rw [h1]; rfl
      · rw [h2, h1, hcol]; simp
    · intro x
      rcases r3 x with h1 | ⟨h1, h2, h3⟩
      · left; exact h1
      · right; subst h1; exact ⟨rfl, by rw [hcol]; simp, h2, h3⟩
    · intro x
      rcases r4 x with h1 | ⟨h1, h2, h3⟩
      · left; exact h1
      · right; subst h1; exact ⟨rfl, by rw [hcol]; simp, h2, h3⟩
  | gray =>
    refine ⟨?_, ?_, ?_⟩
    · intro x
      show (relax u e.1 e.2 st).color.getD x Color.white = Color.black ↔ _
      rw [r1]; rfl
    · intro x
      rcases r3 x with h1 | ⟨h1, h2, h3⟩
      · left; exact h1
      · right; subst h1; exact ⟨rfl, by rw [hcol]; simp, h2, h3⟩
    · intro x
      rcases r4 x with h1 | ⟨h1, h2, h3⟩
      · left; exact h1
      · right; subst h1; exact ⟨rfl, by rw [hcol]; simp, h2, h3⟩
  | black =>
    exact ⟨fun _ => Iff.rfl, fun _ => Or.inl rfl, fun _ => Or.inl rfl⟩

/-- A completed out-edge loop is a sequence of edge steps. -/
theorem steps_out_edge_loop (g : Graph) (u : Nat) :
    ∀ (es : List (Nat × Int)) (st st2 : State), out_edge_loop u es st = Outcome.ok st2 →
      Steps g ⟨st, some (u, es)⟩ ⟨st2, some (u, [])⟩ := by
  intro es
  induction es with
  | nil =>
    intro st st2 h
    simp only [out_edge_loop, Outcome.ok.injEq] at h
    subst h
    exact Relation.ReflTransGen.refl
  | cons e es ih =>
    intro st st2 h
    by_cases hw : e.2 < 0
    · simp [out_edge_loop, hw] at h
    · simp only [out_edge_loop, if_neg hw] at h
      exact Relation.ReflTransGen.head (Step.edge hw) (ih _ _ h)

/-- A completed `while` loop is a sequence of steps. -/
theorem steps_breadth_first_visit (g : Graph) :
    ∀ (fuel : Nat) (st st2 : State), breadth_first_visit g fuel st = Outcome.ok st2 →
      Steps g ⟨st, none⟩ ⟨st2, none⟩ := by
  intro fuel
  induction fuel with
  | zero =>
    intro st st2 h
    simp only [breadth_first_visit] at h
    cases htop : Q_top st.d st.Q with
    | none =>
      rw [htop] at h
      simp only [Outcome.ok.injEq] at h
      subst h
      exact Relation.ReflTransGen.refl
    | some u => rw [htop] at h; simp at h
  | succ fuel ih =>
    intro st st2 h
    simp only [breadth_first_visit] at h
    cases htop : Q_top st.d st.Q with
    | none =>
      rw [htop] at h
      simp only [Outcome.ok.injEq] at h
      subst h
      exact Relation.ReflTransGen.refl
    | some u =>
      rw [htop] at h
      simp only at h
      cases hloop : out_edge_loop u (out_edges g u) { st with Q := st.Q.erase u } with
      | ok st1 =>
        rw [hloop] at h
        simp only at h
        have h1 : Steps g ⟨st, none⟩ ⟨{ st with Q := st.Q.erase u }, some (u, out_edges g u)⟩ :=
          Relation.ReflTransGen.single (Step.examine htop)
        have h2 := steps_out_edge_loop g u _ _ _ hloop
        have h3 : Steps g ⟨st1, some (u, [])⟩
            ⟨{ st1 with color := st1.color.set u Color.black }, none⟩ :=
          Relation.ReflTransGen.single Step.finish
        exact (h1.trans h2).trans (h3.trans (ih _ _ h))
      | negative_edge => rw [hloop] at h; simp at h
      | out_of_fuel => rw [hloop] at h; simp at h

/-- The state a solver run returns is reached from the start configuration by
steps of the visit. -/
theorem steps_dijkstra_run (g : Graph) (s : Nat) (st : State)
    (h : dijkstra_run g s = Outcome.ok st) : Steps g (start_config g s) ⟨st, none⟩ :=
  steps_breadth_first_visit g _ _ _ h

theorem mid_mono (g : Graph) (s : Nat) (st : State) (u : Nat) (done done2 : List (Nat × Int))
    (h : ∀ e ∈ done2, e ∈ done) (hm : Mid g s st u done) : Mid g s st u done2 := by
  obtain ⟨rank, C, h1, h2, h3⟩ := hm
  exact ⟨rank, C, h1, fun e he => h2 e (h e he), h3⟩

/-- Inside the out-edge loop the relaxation candidate of an edge is the plain
sum of the distance of the examined vertex and the edge weight. -/
theorem mid_candidate (g : Graph) (s : Nat) (st : State) (u v : Nat) (w : Int)
    (done : List (Nat × Int)) (hun : Unsaturated g s)
    (hm : Mid g s st u done) (he : (u, v, w) ∈ edges g) (hw : 0 ≤ w) :
    closed_plus (st.dist u) w = st.dist u + w ∧ 0 ≤ st.dist u := by
  obtain ⟨rank, C, hu, _, _⟩ := hm
  have hu_seen := C.seen u (by rw [hu]; simp)
  have hshort : IsShortest g s u (st.dist u) := ⟨hu_seen.2, C.lower u (Or.inr rfl)⟩
  have hc_lt : st.dist u + w < INT_MAX := hun u v w _ he hshort
  exact ⟨closed_plus_eq _ _ (C.d_nonneg u) hw hc_lt, C.d_nonneg u⟩

/-- Every step of the visit keeps the invariant of the step relation. -/
theorem configInv_step (g : Graph) (s : Nat) (hwf : WellFormed g) (hnn : NonNegative g)
    (hun : Unsaturated g s) (c c2 : Config) (hc : ConfigInv g s c) (h : Step g c c2) :
    ConfigInv g s c2 := by
  cases h with
  | @examine st u htop =>
    have hinv : Inv g s st := hc
    refine ⟨[], inv_extract g s st u hwf hnn hun hinv htop, ?_, ?_⟩
    · intro e he; exact (mem_edges g u e.1 e.2).2 he
    · intro e he; exact Or.inr he
  | @edge st u e es hw =>
    obtain ⟨done, hm, h1, h2⟩ : ∃ done, Mid g s st u done
        ∧ (∀ e2 ∈ e :: es, (u, e2.1, e2.2) ∈ edges g)
        ∧ (∀ e2 ∈ out_edges g u, e2 ∈ done ∨ e2 ∈ e :: es) := hc
    have he := h1 e (List.mem_cons_self _ _)
    refine ⟨e :: done, mid_visit_edge g s st u e.1 e.2 done hwf hun hm he (not_lt.mp hw), ?_, ?_⟩
    · intro e2 he2; exact h1 e2 (List.mem_cons_of_mem _ he2)
    · intro e2 he2
      rcases h2 e2 he2 with h3 | h3
      · exact Or.inl (List.mem_cons_of_mem _ h3)
      · rcases List.mem_cons.mp h3 with rfl | h4
        · exact Or.inl (List.mem_cons_self _ _)
        · exact Or.inr h4
  | @finish st u =>
    obtain ⟨done, hm, _, h2⟩ : ∃ done, Mid g s st u done
        ∧ (∀ e2 ∈ ([] : List (Nat × Int)), (u, e2.1, e2.2) ∈ edges g)
        ∧ (∀ e2 ∈ out_edges g u, e2 ∈ done ∨ e2 ∈ ([] : List (Nat × Int))) := hc
    have hm2 : Mid g s st u ((out_edges g u).reverse ++ []) := by
      refine mid_mono g s st u done _ ?_ hm
      intro e he
      rcases h2 e (by simpa using he) with h3 | h3
      · exact h3
      · simp at h3
    exact (mid_finish g s st u hm2).1

theorem configInv_steps (g : Graph) (s : Nat) (hwf : WellFormed g) (hnn : NonNegative g)
    (hun : Unsaturated g s) (c c2 : Config) (hc : ConfigInv g s c) (h : Steps g c c2) :
    ConfigInv g s c2 := by
  induction h with
  | refl => exact hc
  | tail _ hstep ih => exact configInv_step g s hwf hnn hun _ _ ih hstep

theorem configInv_start (g : Graph) (s : Nat) (hs : s < num_vertices g) :
    ConfigInv g s (start_config g s) :=
  inv_init g s hs

/-! ## The source -/

theorem visit_edge_color_length (u : Nat) (e : Nat × Int) (st : State) :
    (visit_edge u e st).color.length = st.color.length := by
  obtain ⟨r1, _⟩ := relax_frame u e.1 e.2 st
  unfold visit_edge
  cases st.col e.1 with
  | white => simp [r1]
  | gray => simp [r1]
  | black => rfl

theorem closed_plus_zero_nonneg (w : Int) (h0 : 0 ≤ w) (h1 : w ≤ INT_MAX) :
    0 ≤ closed_plus 0 w := by
  unfold closed_plus wrap32
  unfold INT_MAX at *
  split
  · omega
  · split
    · omega
    · omega

/-- Every step of the visit keeps the facts about the source. -/
theorem sourceInv_step (g : Graph) (s : Nat) (hfit : WeightsFit g) (c c2 : Config)
    (hc : SourceInv g s c) (h : Step g c c2) : SourceInv g s c2 := by
  obtain ⟨hd, hp, hl, hcase⟩ := hc
  cases h with
  | @examine st u htop =>
    refine ⟨hd, hp, hl, ?_⟩
    rcases hcase with hb | ⟨_, hQ⟩ | ⟨es, hcur, _⟩
    · exact Or.inl hb
    · right; right
      have hQ2 : st.Q = [s] := hQ
      rw [hQ2] at htop
      simp only [Q_top, Option.some.injEq] at htop
      subst htop
      exact ⟨_, rfl, fun e he => (mem_edges g s e.1 e.2).2 he⟩
    · simp at hcur
  | @edge st u e es hw =>
    obtain ⟨f1, f2, f3⟩ := visit_edge_frame u e st
    have hd0 : st.dist s = 0 := hd
    have hkeep : (st.col s = Color.black ∨ (s = u ∧ (u, e.1, e.2) ∈ edges g)) →
        (visit_edge u e st).dist s = 0 ∧ (visit_edge u e st).pred s = s := by
      intro hk
      have hno : ¬ (s = e.1 ∧ st.col s ≠ Color.black ∧ closed_plus (st.dist u) e.2 < st.dist s) := by
        rintro ⟨_, h2, h3⟩
        rcases hk with hb | ⟨hsu, hmem⟩
        · exact h2 hb
        · subst hsu
          have := closed_plus_zero_nonneg e.2 (not_lt.mp hw) (hfit _ hmem)
          rw [hd0] at h3
          omega
      constructor
      · rcases f2 s with h1 | ⟨h1, h2, h3, _⟩
        · rw [h1]; exact hd
        · exact absurd ⟨h1, h2, h3⟩ hno
      · rcases f3 s with h1 | ⟨h1, h2, h3, _⟩
        · rw [h1]; exact hp
        · exact absurd ⟨h1, h2, h3⟩ hno
    rcases hcase with hb | ⟨hcur, _⟩ | ⟨es2, hcur, hmem⟩
    · obtain ⟨k1, k2⟩ := hkeep (Or.inl hb)
      exact ⟨k1, k2, by rw [visit_edge_color_length]; exact hl, Or.inl ((f1 s).2 hb)⟩
    · simp at hcur
    · simp only [Option.some.injEq, Prod.mk.injEq] at hcur
      obtain ⟨rfl, rfl⟩ := hcur
      obtain ⟨k1, k2⟩ := hkeep (Or.inr ⟨rfl, hmem e (List.mem_cons_self _ _)⟩)
      refine ⟨k1, k2, by rw [visit_edge_color_length]; exact hl, Or.inr (Or.inr ⟨es, rfl, ?_⟩)⟩
      intro e2 he2
      exact hmem e2 (List.mem_cons_of_mem _ he2)
  | @finish st u =>
    have hl2 : s < st.color.length := hl
    refine ⟨hd, hp, by simpa using hl2, Or.inl ?_⟩
    rcases hcase with hb | ⟨hcur, _⟩ | ⟨es2, hcur, _⟩
    · rcases getD_set_cases st.color u s Color.black Color.white with h1 | ⟨_, h2⟩
      · exact h1.trans hb
      · exact h2
    · simp at hcur
    · simp only [Option.some.injEq, Prod.mk.injEq] at hcur
      obtain ⟨rfl, _⟩ := hcur
      exact getD_set_self _ _ _ _ hl2

theorem sourceInv_steps (g : Graph) (s : Nat) (hfit : WeightsFit g) (c c2 : Config)
    (hc : SourceInv g s c) (h : Steps g c c2) : SourceInv g s c2 := by
  induction h with
  | refl => exact hc
  | tail _ hstep ih => exact sourceInv_step g s hfit _ _ ih hstep

theorem sourceInv_start (g : Graph) (s : Nat) (hs : s < num_vertices g) :
    SourceInv g s (start_config g s) := by
  obtain ⟨rank, C⟩ := inv_init g s hs
  have hl : s < (dijkstra_init g s).color.length := by rw [C.len_c]; exact hs
  exact ⟨C.src.2.1, C.src.2.2, hl, Or.inr (Or.inl ⟨rfl, rfl⟩)⟩

/-! ## How a solver run ends -/

theorem dijkstra_run_cases (g : Graph) (s : Nat) (hwf : WellFormed g)
    (hs : s < num_vertices g) :
    (∃ st, dijkstra_run g s = Outcome.ok st ∧ VisitInv g s st ∧ st.Q = [])
    ∨ (dijkstra_run g s = Outcome.negative_edge
        ∧ ∃ u v w, (u, v, w) ∈ edges g ∧ w < 0 ∧ Reachable g s u) :=
  visit_run g s hwf (num_vertices g) (dijkstra_init g s) (visit_init g s hs) (by omega)

/-- For every well-formed graph the solver ends within its iteration bound:
with `negative_edge` exactly when an edge of negative weight leaves a vertex
reachable from the source, and with a result otherwise. -/
theorem solve_outcome (g : Graph) (s : Nat) (hwf : WellFormed g) (hs : s < num_vertices g) :
    (solve g s = Outcome.negative_edge ↔
      ∃ u v w, (u, v, w) ∈ edges g ∧ w < 0 ∧ Reachable g s u)
    ∧ ((¬ ∃ u v w, (u, v, w) ∈ edges g ∧ w < 0 ∧ Reachable g s u) →
        ∃ d p, solve g s = Outcome.ok (d, p)) := by
  rcases dijkstra_run_cases g s hwf hs with ⟨st, h1, h2, h3⟩ | ⟨h1, h2⟩
  · have hsol : solve g s = Outcome.ok (st.d, st.p) := by unfold solve; rw [h1]
    have hnone : ¬ ∃ u v w, (u, v, w) ∈ edges g ∧ w < 0 ∧ Reachable g s u := by
      rintro ⟨u, v, w, he, hw, hr⟩
      have hb := visit_final_black g s st h2 h3 u hr
      have := (h2.closed u v w hb he).2
      omega
    refine ⟨⟨fun h => ?_, fun h => absurd h hnone⟩, fun _ => ⟨_, _, hsol⟩⟩
    rw [hsol] at h
    simp at h
  · have hsol : solve g s = Outcome.negative_edge := by unfold solve; rw [h1]
    exact ⟨⟨fun _ => h2, fun _ => hsol⟩, fun h => absurd h2 h⟩

theorem dijkstra_run_nonneg (g : Graph) (s : Nat) (hwf : WellFormed g) (hnn : NonNegative g)
    (hs : s < num_vertices g) :
    ∃ st, dijkstra_run g s = Outcome.ok st ∧ solve g s = Outcome.ok (st.d, st.p)
      ∧ VisitInv g s st ∧ st.Q = [] := by
  rcases dijkstra_run_cases g s hwf hs with ⟨st, h1, h2, h3⟩ | ⟨_, u, v, w, he, hw, _⟩
  · exact ⟨st, h1, by unfold solve; rw [h1], h2, h3⟩
  · have := hnn (u, v, w) he
    simp only at this
    omega

theorem num_vertices_foldl (es : List ((Nat × Nat) × Int)) (g : Graph) :
    num_vertices (es.foldl (fun g e => add_edge e.1.1 e.1.2 e.2 g) g)
      = es.foldl (fun m e => max m (max e.1.1 e.1.2 + 1)) (num_vertices g) := by
  induction es generalizing g with
  | nil => rfl
  | cons e es ih => rw [List.foldl_cons, List.foldl_cons, ih, num_vertices_add_edge]

theorem weightsFit_main_graph : WeightsFit main_graph := by
  intro e he
  rw [edges_main_graph] at he
  simp only [List.mem_cons, List.mem_singleton, List.not_mem_nil, or_false] at he
  rcases he with rfl | rfl | rfl | rfl | rfl <;> decide

/-- C12 (amended): for every constructed graph with non-negative `int` weights
and every source the solver returns with distance[source] = 0 and
predecessor[source] = source, and every vertex not reachable from the source
ends with distance `INT_MAX` and as its own predecessor; when moreover no
relaxation candidate reaches `INT_MAX`, every reachable vertex ends with a
distance different from `INT_MAX`. -/
theorem solve_source_and_unreachable (ea : List (Nat × Nat)) (ws : List Int) (n s : Nat)
    (hnn : NonNegative (adjacency_list ea ws n)) (hfit : WeightsFit (adjacency_list ea ws n))
    (hs : s < num_vertices (adjacency_list ea ws n)) :
    ∃ d p, solve (adjacency_list ea ws n) s = Outcome.ok (d, p)
      ∧ d.getD s 0 = 0 ∧ p.getD s 0 = s
      ∧ (∀ v, v < num_vertices (adjacency_list ea ws n) →
          ¬ Reachable (adjacency_list ea ws n) s v → d.getD v 0 = INT_MAX ∧ p.getD v 0 = v)
      ∧ (Unsaturated (adjacency_list ea ws n) s →
          ∀ v, Reachable (adjacency_list ea ws n) s v → d.getD v 0 ≠ INT_MAX) := by
  have hwf := wellFormed_adjacency_list ea ws n
  obtain ⟨st, h1, h2, h3, h4⟩ := dijkstra_run_nonneg _ s hwf hnn hs
  have hsrc := sourceInv_steps _ s hfit _ _ (sourceInv_start _ s hs) (steps_dijkstra_run _ s st h1)
  refine ⟨st.d, st.p, h2, hsrc.1, hsrc.2.1, ?_, ?_⟩
  · intro v hv hnr
    have hw : st.col v = Color.white := by
      by_contra hne
      exact hnr (h3.seen v hne)
    exact h3.white v hv hw
  · intro hun v hr
    obtain ⟨st2, k1, _, k3, k4⟩ := dijkstra_run_ok _ s hwf hnn hun hs
    have heq : st2 = st := by
      rw [h1] at k1
      exact (Outcome.ok.inj k1).symm
    subst heq
    have hb := (final_reachable _ s st2 hwf hnn hun k3 k4 v hr).1
    obtain ⟨rank, C⟩ := k3
    have := (C.seen v (by rw [hb]; simp)).1
    show st2.dist v ≠ INT_MAX
    omega

/-- Witness of C12 (amended) on the graph of `main` with source 0. -/
theorem solve_source_and_unreachable_witness :
    NonNegative main_graph ∧ WeightsFit main_graph ∧ 0 < num_vertices main_graph ∧
    ∃ d p, solve main_graph 0 = Outcome.ok (d, p)
      ∧ d.getD 0 0 = 0 ∧ p.getD 0 0 = 0
      ∧ (∀ v, v < num_vertices main_graph →
          ¬ Reachable main_graph 0 v → d.getD v 0 = INT_MAX ∧ p.getD v 0 = v)
      ∧ (Unsaturated main_graph 0 →
          ∀ v, Reachable main_graph 0 v → d.getD v 0 ≠ INT_MAX) :=
  ⟨nonNegative_main_graph, weightsFit_main_graph, by decide,
    solve_source_and_unreachable edge_array weights_v num_nodes 0 nonNegative_main_graph
      weightsFit_main_graph (by decide)⟩

theorem edges_heavy :
    edges (adjacency_list [(0, 1)] [2147483647] 2) = [(0, 1, 2147483647)] := by
  decide

theorem reachable_heavy : Reachable (adjacency_list [(0, 1)] [2147483647] 2) 0 1 :=
  ⟨_, Path.snoc Path.nil
    (show ((0 : Nat), (1 : Nat), (2147483647 : Int)) ∈
      edges (adjacency_list [(0, 1)] [2147483647] 2) by rw [edges_heavy]; simp)⟩

theorem nonNegative_heavy : NonNegative (adjacency_list [(0, 1)] [2147483647] 2) := by
  intro e he
  rw [edges_heavy] at he
  simp only [List.mem_singleton] at he
  subst he
  decide

/-- C12 as stated fails: on the graph with the single edge (0,1) of weight
2147483647, a non-negative `int`, vertex 1 is reachable from the source 0 but
ends with distance[1] = `INT_MAX`, the infinite value. -/
theorem reachable_with_infinite_distance :
    NonNegative (adjacency_list [(0, 1)] [2147483647] 2)
    ∧ Reachable (adjacency_list [(0, 1)] [2147483647] 2) 0 1
    ∧ ∃ d p, solve (adjacency_list [(0, 1)] [2147483647] 2) 0 = Outcome.ok (d, p)
      ∧ d.getD 1 0 = INT_MAX :=
  ⟨nonNegative_heavy, reachable_heavy, [0, 2147483647], [0, 1], by decide, by decide⟩

/-- C13 (amended): for every constructed graph with non-negative weights in
which no relaxation candidate reaches `INT_MAX`, every source and every
reachable vertex `v` other than the source, predecessor[v] is reachable, the
graph has an edge (predecessor[v], v) of some weight `w` with
distance[predecessor[v]] + w == distance[v], and both distances are
shortest-path weights: predecessor[v] lies on a shortest path to `v`. -/
theorem predecessor_on_shortest_path (ea : List (Nat × Nat)) (ws : List Int) (n s : Nat)
    (hnn : NonNegative (adjacency_list ea ws n))
    (hun : Unsaturated (adjacency_list ea ws n) s)
    (hs : s < num_vertices (adjacency_list ea ws n)) :
    ∃ d p, solve (adjacency_list ea ws n) s = Outcome.ok (d, p) ∧
      ∀ v, Reachable (adjacency_list ea ws n) s v → v ≠ s →
        Reachable (adjacency_list ea ws n) s (p.getD v 0)
        ∧ IsShortest (adjacency_list ea ws n) s (p.getD v 0) (d.getD (p.getD v 0) 0)
        ∧ IsShortest (adjacency_list ea ws n) s v (d.getD v 0)
        ∧ ∃ w, (p.getD v 0, v, w) ∈ edges (adjacency_list ea ws n)
            ∧ d.getD (p.getD v 0) 0 + w = d.getD v 0 := by
  have hwf := wellFormed_adjacency_list ea ws n
  obtain ⟨st, _, h2, h3, h4⟩ := dijkstra_run_ok _ s hwf hnn hun hs
  refine ⟨st.d, st.p, h2, ?_⟩
  intro v hr hvs
  obtain ⟨hb, hsh⟩ := final_reachable _ s st hwf hnn hun h3 h4 v hr
  obtain ⟨rank, C⟩ := h3
  obtain ⟨t1, ⟨w, t2, t3⟩, _⟩ := C.tree v (by rw [hb]; simp) hvs
  have t1b : st.col (st.pred v) = Color.black := t1
  have hps := C.seen (st.pred v) (by rw [t1b]; simp)
  exact ⟨⟨_, hps.2⟩, ⟨hps.2, C.lower _ t1⟩, hsh, w, t2, t3.symm⟩

/-- Witness of C13 (amended) on the graph of `main` with source 0. -/
theorem predecessor_on_shortest_path_witness :
    NonNegative main_graph ∧ Unsaturated main_graph 0 ∧ 0 < num_vertices main_graph ∧
    ∃ d p, solve main_graph 0 = Outcome.ok (d, p) ∧
      ∀ v, Reachable main_graph 0 v → v ≠ 0 →
        Reachable main_graph 0 (p.getD v 0)
        ∧ IsShortest main_graph 0 (p.getD v 0) (d.getD (p.getD v 0) 0)
        ∧ IsShortest main_graph 0 v (d.getD v 0)
        ∧ ∃ w, (p.getD v 0, v, w) ∈ edges main_graph
            ∧ d.getD (p.getD v 0) 0 + w = d.getD v 0 :=
  ⟨nonNegative_main_graph, unsaturated_main_graph, by decide,
    predecessor_on_shortest_path edge_array weights_v num_nodes 0 nonNegative_main_graph
      unsaturated_main_graph (by decide)⟩

/-- C13 as stated fails: on the graph with the single edge (0,1) of weight
2147483647 vertex 1 is reachable from the source 0 and differs from it, but it
is never relaxed: predecessor[1] = 1, and the graph has no edge (1,1). -/
theorem predecessor_not_set :
    NonNegative (adjacency_list [(0, 1)] [2147483647] 2)
    ∧ Reachable (adjacency_list [(0, 1)] [2147483647] 2) 0 1
    ∧ ∃ d p, solve (adjacency_list [(0, 1)] [2147483647] 2) 0 = Outcome.ok (d, p)
      ∧ p.getD 1 0 = 1
      ∧ ¬ ∃ w, (p.getD 1 0, 1, w) ∈ edges (adjacency_list [(0, 1)] [2147483647] 2) := by
  refine ⟨nonNegative_heavy, reachable_heavy, [0, 2147483647], [0, 1], by decide, by decide, ?_⟩
  rintro ⟨w, hw⟩
  rw [edges_heavy] at hw
  simp at hw

/-! ## Relaxation -/

theorem closed_plus_tie (a w b : Int) (h : a + w = b) (hlo : -2147483648 ≤ b)
    (hhi : b ≤ INT_MAX) : ¬ closed_plus a w < b := by
  unfold closed_plus wrap32
  unfold INT_MAX at *
  split
  · omega
  · split
    · omega
    · omega

theorem relax_eq_self (u v : Nat) (w : Int) (st : State)
    (h : ¬ closed_plus (st.dist u) w < st.dist v) : relax u v w st = st := by
  unfold relax
  simp [h]

/-- C14: relaxation updates only on strict improvement. In a relaxation step
of the edge (u,v) of weight w, if distance[u] + w == distance[v] (distance[v]
being an `int`), the candidate does not compare less than distance[v], the
relaxation leaves the state as it is, and the loop body on that edge leaves
both the distance vector and the predecessor vector unchanged. On the graph
with edges (0,1,1), (0,2,1), (1,3,1), (2,3,1) in that order and source 0 the
result has predecessor[3] = 1. -/
theorem relax_only_on_strict_improvement (u v : Nat) (w : Int) (st : State)
    (hlo : -2147483648 ≤ st.dist v) (hhi : st.dist v ≤ INT_MAX)
    (h : st.dist u + w = st.dist v) :
    ¬ closed_plus (st.dist u) w < st.dist v
    ∧ relax u v w st = st
    ∧ (visit_edge u (v, w) st).d = st.d ∧ (visit_edge u (v, w) st).p = st.p
    ∧ ∃ d p, solve (adjacency_list [(0, 1), (0, 2), (1, 3), (2, 3)] [1, 1, 1, 1] 4) 0
        = Outcome.ok (d, p) ∧ p.getD 3 0 = 1 := by
  have h1 := closed_plus_tie _ _ _ h hlo hhi
  have h2 := relax_eq_self u v w st h1
  refine ⟨h1, h2, ?_, ?_, [0, 1, 1, 2], [0, 0, 0, 1], by decide, by decide⟩
  · unfold visit_edge
    cases st.col v with
    | white => simp only; rw [h2]
    | gray => simp only; rw [h2]
    | black => rfl
  · unfold visit_edge
    cases st.col v with
    | white => simp only; rw [h2]
    | gray => simp only; rw [h2]
    | black => rfl

/-- Witness of C14: the second edge into vertex 3 of the diamond graph, met
with distance[2] + 1 == distance[3]. -/
theorem relax_only_on_strict_improvement_witness :
    (-2147483648 : Int) ≤ (State.mk [0, 1, 1, 2] [0, 0, 0, 1] [] []).dist 3
    ∧ (State.mk [0, 1, 1, 2] [0, 0, 0, 1] [] []).dist 3 ≤ INT_MAX
    ∧ (State.mk [0, 1, 1, 2] [0, 0, 0, 1] [] []).dist 2 + 1
        = (State.mk [0, 1, 1, 2] [0, 0, 0, 1] [] []).dist 3
    ∧ relax 2 3 1 (State.mk [0, 1, 1, 2] [0, 0, 0, 1] [] [])
        = State.mk [0, 1, 1, 2] [0, 0, 0, 1] [] [] :=
  ⟨by decide, by decide, by decide,
    (relax_only_on_strict_improvement 2 3 1 (State.mk [0, 1, 1, 2] [0, 0, 0, 1] [] [])
      (by decide) (by decide) (by decide)).2.1⟩

/-- C16: in every step of the visit and for every vertex `v` the value of
distance[v] after the step is less than or equal to its value before the
step; and an entry that changes is changed by the relaxation of an edge
(u,v): the step is the loop body on that edge, the candidate compares
strictly less than the old distance[v] and becomes the new one. -/
theorem step_distance_non_increasing (g : Graph) (c c2 : Config) (h : Step g c c2) (v : Nat) :
    c2.st.dist v ≤ c.st.dist v
    ∧ (c2.st.dist v ≠ c.st.dist v →
        ∃ u w es, c.cur = some (u, (v, w) :: es) ∧ c2.st = visit_edge u (v, w) c.st
          ∧ closed_plus (c.st.dist u) w < c.st.dist v
          ∧ c2.st.dist v = closed_plus (c.st.dist u) w) := by
  cases h with
  | @examine st u htop => exact ⟨le_refl _, fun hne => absurd rfl hne⟩
  | @edge st u e es hw =>
    obtain ⟨_, f2, _⟩ := visit_edge_frame u e st
    rcases f2 v with h1 | ⟨h1, _, h3, h4⟩
    · exact ⟨le_of_eq h1, fun hne => absurd h1 hne⟩
    · refine ⟨by show (visit_edge u e st).dist v ≤ st.dist v; omega, fun _ => ?_⟩
      obtain ⟨a, b⟩ := e
      simp only at h1 h3 h4
      subst h1
      exact ⟨u, b, es, rfl, rfl, h3, h4⟩
  | @finish st u => exact ⟨le_refl _, fun hne => absurd rfl hne⟩

/-- Witness of C16: the loop body of the first iteration on the graph of
`main`, relaxing the edge (0,3). -/
theorem step_distance_non_increasing_witness :
    Step main_graph ⟨{ dijkstra_init main_graph 0 with Q := [] }, some (0, [(3, 1)])⟩
      ⟨visit_edge 0 (3, 1) { dijkstra_init main_graph 0 with Q := [] }, some (0, [])⟩
    ∧ (visit_edge 0 (3, 1) { dijkstra_init main_graph 0 with Q := [] }).dist 3
        ≤ State.dist { dijkstra_init main_graph 0 with Q := [] } 3 :=
  ⟨Step.edge (by decide),
    (step_distance_non_increasing main_graph
      ⟨{ dijkstra_init main_graph 0 with Q := [] }, some (0, [(3, 1)])⟩
      ⟨visit_edge 0 (3, 1) { dijkstra_init main_graph 0 with Q := [] }, some (0, [])⟩
      (Step.edge (by decide)) 3).1⟩

/-! ## Finalized vertices -/

theorem step_deterministic (g : Graph) (c c1 c2 : Config) (h1 : Step g c c1)
    (h2 : Step g c c2) : c1 = c2 := by
  cases h1 with
  | @examine st u htop =>
    cases h2 with
    | @examine _ u2 htop2 =>
      rw [htop] at htop2
      simp only [Option.some.injEq] at htop2
      subst htop2
      rfl
  | @edge st u e es hw =>
    cases h2 with
    | @edge _ _ _ _ _ => rfl
  | @finish st u =>
    cases h2 with
    | @finish _ _ => rfl

/-- In a deterministic run every configuration met on the way leads on to the
configuration in which the run stops. -/
theorem steps_to_final (g : Graph) (a c f : Config) (hf : ∀ x, ¬ Step g f x)
    (haf : Steps g a f) (hac : Steps g a c) : Steps g c f := by
  induction hac with
  | refl => exact haf
  | @tail b c _ hbc ih =>
    rcases Relation.ReflTransGen.cases_head ih with h | ⟨b2, h1, h2⟩
    · subst h
      exact absurd hbc (hf c)
    · have := step_deterministic g b b2 c h1 hbc
      subst this
      exact h2

theorem no_step_of_empty (g : Graph) (st : State) (hQ : st.Q = []) (x : Config) :
    ¬ Step g ⟨st, none⟩ x := by
  intro h
  cases h with
  | @examine _ u htop =>
    rw [hQ] at htop
    simp [Q_top] at htop

/-- A finalized vertex has its shortest-path weight as distance. -/
theorem finalized_shortest (g : Graph) (s : Nat) (c : Config) (hc : ConfigInv g s c)
    (u : Nat) (hu : Finalized c u) : IsShortest g s u (c.st.dist u) := by
  obtain ⟨st, cur⟩ := c
  cases cur with
  | none =>
    obtain ⟨rank, C⟩ : Inv g s st := hc
    rcases hu with hb | ⟨es, he⟩
    · have hb2 : st.col u = Color.black := hb
      exact ⟨(C.seen u (by rw [hb2]; simp)).2, C.lower u hb2⟩
    · simp at he
  | some ues =>
    obtain ⟨u2, es⟩ := ues
    obtain ⟨done, ⟨rank, C, hg, _, _⟩, _, _⟩ : ∃ done, Mid g s st u2 done
        ∧ (∀ e ∈ es, (u2, e.1, e.2) ∈ edges g)
        ∧ (∀ e ∈ out_edges g u2, e ∈ done ∨ e ∈ es) := hc
    have hfin : st.col u = Color.black ∨ u = u2 := by
      rcases hu with hb | ⟨es2, he⟩
      · exact Or.inl hb
      · simp only [Option.some.injEq, Prod.mk.injEq] at he
        exact Or.inr he.1.symm
    exact ⟨(C.seen u (C.fin_seen u hfin)).2, C.lower u hfin⟩

/-- A step of the visit leaves a finalized vertex finalized and does not touch
its distance or its predecessor. -/
theorem finalized_step (g : Graph) (s : Nat) (hun : Unsaturated g s) (c c2 : Config)
    (hc : ConfigInv g s c) (h : Step g c c2) (u : Nat) (hu : Finalized c u) :
    Finalized c2 u ∧ c2.st.dist u = c.st.dist u ∧ c2.st.pred u = c.st.pred u := by
  cases h with
  | @examine st u2 htop =>
    rcases hu with hb | ⟨es, he⟩
    · exact ⟨Or.inl hb, rfl, rfl⟩
    · simp at he
  | @edge st u2 e es hw =>
    obtain ⟨done, hm, h1, _⟩ : ∃ done, Mid g s st u2 done
        ∧ (∀ e2 ∈ e :: es, (u2, e2.1, e2.2) ∈ edges g)
        ∧ (∀ e2 ∈ out_edges g u2, e2 ∈ done ∨ e2 ∈ e :: es) := hc
    have he := h1 e (List.mem_cons_self _ _)
    obtain ⟨hcand, hd0⟩ := mid_candidate g s st u2 e.1 e.2 done hun hm he (not_lt.mp hw)
    obtain ⟨f1, f2, f3⟩ := visit_edge_frame u2 e st
    have hno : ¬ (u = e.1 ∧ st.col u ≠ Color.black
        ∧ closed_plus (st.dist u2) e.2 < st.dist u) := by
      rintro ⟨_, k2, k3⟩
      rcases hu with hb | ⟨es2, hcur⟩
      · exact k2 hb
      · simp only [Option.some.injEq, Prod.mk.injEq] at hcur
        obtain ⟨rfl, _⟩ := hcur
        rw [hcand] at k3
        have := not_lt.mp hw
        omega
    refine ⟨?_, ?_, ?_⟩
    · rcases hu with hb | ⟨es2, hcur⟩
      · exact Or.inl ((f1 u).2 hb)
      · simp only [Option.some.injEq, Prod.mk.injEq] at hcur
        obtain ⟨rfl, _⟩ := hcur
        exact Or.inr ⟨es, rfl⟩
    · rcases f2 u with k | ⟨k1, k2, k3, _⟩
      · exact k
      · exact absurd ⟨k1, k2, k3⟩ hno
    · rcases f3 u with k | ⟨k1, k2, k3, _⟩
      · exact k
      · exact absurd ⟨k1, k2, k3⟩ hno
  | @finish st u2 =>
    obtain ⟨done, ⟨rank, C, hg, _, _⟩, _, _⟩ : ∃ done, Mid g s st u2 done
        ∧ (∀ e2 ∈ ([] : List (Nat × Int)), (u2, e2.1, e2.2) ∈ edges g)
        ∧ (∀ e2 ∈ out_edges g u2, e2 ∈ done ∨ e2 ∈ ([] : List (Nat × Int))) := hc
    have hl : u2 < st.color.length := col_ne_white_lt st u2 (by rw [hg]; simp)
    refine ⟨Or.inl ?_, rfl, rfl⟩
    rcases hu with hb | ⟨es2, hcur⟩
    · rcases getD_set_cases st.color u2 u Color.black Color.white with k | ⟨_, k⟩
      · exact k.trans hb
      · exact k
    · simp only [Option.some.injEq, Prod.mk.injEq] at hcur
      obtain ⟨rfl, _⟩ := hcur
      exact getD_set_self _ _ _ _ hl

theorem finalized_steps (g : Graph) (s : Nat) (hwf : WellFormed g) (hnn : NonNegative g)
    (hun : Unsaturated g s) (c c2 : Config) (hc : ConfigInv g s c) (h : Steps g c c2)
    (u : Nat) (hu : Finalized c u) :
    Finalized c2 u ∧ c2.st.dist u = c.st.dist u ∧ c2.st.pred u = c.st.pred u := by
  induction h with
  | refl => exact ⟨hu, rfl, rfl⟩
  | @tail b c3 hcb hstep ih =>
    have hb := configInv_steps g s hwf hnn hun c b hc hcb
    obtain ⟨k1, k2, k3⟩ := finalized_step g s hun b c3 hb hstep u ih.1
    exact ⟨k1, k2.trans ih.2.1, k3.trans ih.2.2⟩

/-- C15 (amended): for every constructed graph with non-negative weights in
which no relaxation candidate reaches `INT_MAX`, and every configuration of a
run from the source `s`: once a vertex `u` has been taken from the queue, its
distance is the shortest-path weight from `s` to `u`, every later step of the
run leaves `u` finalized and leaves distance[u] and predecessor[u] as they
are, and they are the values the solver returns. -/
theorem finalized_is_shortest_and_frozen (ea : List (Nat × Nat)) (ws : List Int) (n s : Nat)
    (hnn : NonNegative (adjacency_list ea ws n))
    (hun : Unsaturated (adjacency_list ea ws n) s)
    (hs : s < num_vertices (adjacency_list ea ws n))
    (c : Config) (hc : Steps (adjacency_list ea ws n) (start_config (adjacency_list ea ws n) s) c)
    (u : Nat) (hu : Finalized c u) :
    IsShortest (adjacency_list ea ws n) s u (c.st.dist u)
    ∧ (∀ c2, Steps (adjacency_list ea ws n) c c2 →
        Finalized c2 u ∧ c2.st.dist u = c.st.dist u ∧ c2.st.pred u = c.st.pred u)
    ∧ ∃ d p, solve (adjacency_list ea ws n) s = Outcome.ok (d, p)
        ∧ d.getD u 0 = c.st.dist u ∧ p.getD u 0 = c.st.pred u := by
  have hwf := wellFormed_adjacency_list ea ws n
  have hci := configInv_steps _ s hwf hnn hun _ c (configInv_start _ s hs) hc
  refine ⟨finalized_shortest _ s c hci u hu,
    fun c2 h2 => finalized_steps _ s hwf hnn hun c c2 hci h2 u hu, ?_⟩
  obtain ⟨st, h1, h2, _, h4⟩ := dijkstra_run_ok _ s hwf hnn hun hs
  have hfin := steps_to_final _ _ c ⟨st, none⟩ (no_step_of_empty _ st h4)
    (steps_dijkstra_run _ s st h1) hc
  obtain ⟨_, k2, k3⟩ := finalized_steps _ s hwf hnn hun c _ hci hfin u hu
  exact ⟨st.d, st.p, h2, k2, k3⟩

/-- Witness of C15 (amended): the source of the graph of `main`, when it has
just been taken from the queue. -/
theorem finalized_is_shortest_and_frozen_witness :
    NonNegative main_graph ∧ Unsaturated main_graph 0 ∧ 0 < num_vertices main_graph
    ∧ Steps main_graph (start_config main_graph 0)
        ⟨{ dijkstra_init main_graph 0 with Q := (dijkstra_init main_graph 0).Q.erase 0 },
          some (0, out_edges main_graph 0)⟩
    ∧ IsShortest main_graph 0 0 ((dijkstra_init main_graph 0).dist 0) :=
  ⟨nonNegative_main_graph, unsaturated_main_graph, by decide,
    Relation.ReflTransGen.single (Step.examine (by decide)),
    (finalized_is_shortest_and_frozen edge_array weights_v num_nodes 0 nonNegative_main_graph
      unsaturated_main_graph (by decide)
      ⟨{ dijkstra_init main_graph 0 with Q := (dijkstra_init main_graph 0).Q.erase 0 },
        some (0, out_edges main_graph 0)⟩
      (Relation.ReflTransGen.single (Step.examine (by decide))) 0 (Or.inr ⟨_, rfl⟩)).1⟩

theorem nonNegative_saturated :
    NonNegative (adjacency_list [(0, 1), (1, 2)] [2147483647, 1] 3) := by
  intro e he
  rw [edges_saturated] at he
  simp only [List.mem_cons, List.mem_singleton, List.not_mem_nil, or_false] at he
  rcases he with rfl | rfl <;> decide

/-- C15 as stated fails: on the graph with edges (0,1) of weight 2147483647
and (1,2) of weight 1 the run from the source 0 takes vertex 2 from the queue
and colours it black with distance[2] = 2147483647, while the shortest-path
weight from 0 to 2 is 2147483648. -/
theorem finalized_not_shortest :
    NonNegative (adjacency_list [(0, 1), (1, 2)] [2147483647, 1] 3)
    ∧ IsShortest (adjacency_list [(0, 1), (1, 2)] [2147483647, 1] 3) 0 2 2147483648
    ∧ ∃ c, Steps (adjacency_list [(0, 1), (1, 2)] [2147483647, 1] 3)
          (start_config (adjacency_list [(0, 1), (1, 2)] [2147483647, 1] 3) 0) c
        ∧ Finalized c 2 ∧ c.st.dist 2 = 2147483647 := by
  refine ⟨nonNegative_saturated, shortest_saturated,
    ⟨State.mk [0, 2147483647, 2147483647] [0, 1, 2]
      [Color.black, Color.black, Color.black] [], none⟩, ?_, Or.inl (by decide), by decide⟩
  exact steps_dijkstra_run _ 0 _ (by decide)

/-! ## The predecessor tree -/

/-- A predecessor chain from a discovered vertex visits no vertex twice: the
ranks strictly decrease along it. -/
theorem core_chain_nodup (g : Graph) (s : Nat) (st : State) (fin : Nat → Prop) (T : Nat)
    (rank : Nat → Nat) (C : Core g s st fin T rank) (v : Nat) (l : List Nat)
    (h : Chain st.p s v l) (hv : st.col v ≠ Color.white) :
    l.Nodup ∧ ∀ x ∈ l, rank x ≤ rank v := by
  induction h with
  | base => simp
  | @step u v l hvs hp _ ih =>
    have hpred : st.pred v = u := by
      simp [State.pred, List.getD_eq_getElem?_getD, hp]
    obtain ⟨t1, _, t3⟩ := C.tree v hv hvs
    rw [hpred] at t1 t3
    obtain ⟨h1, h2⟩ := ih (C.fin_seen u t1)
    constructor
    · rw [List.nodup_cons]
      refine ⟨fun hmem => ?_, h1⟩
      have := h2 v hmem
      omega
    · intro x hx
      rcases List.mem_cons.mp hx with rfl | hx
      · exact le_refl _
      · have := h2 x hx
        omega

/-- Along a predecessor chain the walk is still running while it has been
allowed fewer iterations than the chain has vertices other than the start. -/
theorem walk_chain_running (p : List Nat) (s v : Nat) (l : List Nat) (h : Chain p s v l) :
    ∀ (fuel : Nat) (acc : List Nat), fuel + 1 < l.length →
      walk p s fuel v acc = WalkResult.running := by
  induction h with
  | base =>
    intro fuel acc hf
    simp at hf
  | @step u v l hv hp _ ih =>
    intro fuel acc hf
    cases fuel with
    | zero =>
      unfold walk
      simp [hv]
    | succ fuel =>
      unfold walk
      simp only [if_neg hv, hp]
      exact ih fuel _ (by simpa using hf)

/-- C17 (amended): for every constructed graph with non-negative weights
(zero-weight edges and cycles included) in which no relaxation candidate
reaches `INT_MAX`, every source and every goal reachable from the source, the
predecessor walk exits after exactly as many iterations as the path has
vertices other than the source, at most `num_vertices - 1`, and the resulting
sequence read in reverse starts with the source, ends with the goal and
contains no vertex twice. -/
theorem walk_terminates_without_repetition (ea : List (Nat × Nat)) (ws : List Int) (n s : Nat)
    (hnn : NonNegative (adjacency_list ea ws n))
    (hun : Unsaturated (adjacency_list ea ws n) s)
    (hs : s < num_vertices (adjacency_list ea ws n)) :
    ∃ d p, solve (adjacency_list ea ws n) s = Outcome.ok (d, p) ∧
      ∀ goal, Reachable (adjacency_list ea ws n) s goal →
        ∃ path,
          path.length ≤ num_vertices (adjacency_list ea ws n)
          ∧ (∀ fuel, path.length ≤ fuel + 1 →
              reconstruct p s goal fuel = WalkResult.finished path)
          ∧ (∀ fuel, fuel + 1 < path.length →
              reconstruct p s goal fuel = WalkResult.running)
          ∧ path.head? = some s ∧ path.getLast? = some goal ∧ path.Nodup := by
  have hwf := wellFormed_adjacency_list ea ws n
  obtain ⟨st, _, h2, h3, h4⟩ := dijkstra_run_ok _ s hwf hnn hun hs
  refine ⟨st.d, st.p, h2, ?_⟩
  intro goal hg
  have hb := (final_reachable _ s st hwf hnn hun h3 h4 goal hg).1
  obtain ⟨rank, C⟩ := h3
  have hgw : st.col goal ≠ Color.white := by rw [hb]; simp
  obtain ⟨l, c1, c2, _⟩ := core_chain _ s st _ _ rank C (rank goal) goal (le_refl _) hgw
  obtain ⟨hnd, _⟩ := core_chain_nodup _ s st _ _ rank C goal l c1 hgw
  have hr := C.rank_fin goal hb
  have hcnt : st.blackCount ≤ num_vertices (adjacency_list ea ws n) := by
    rw [← C.len_c]; exact List.count_le_length _ _
  refine ⟨l.reverse, by rw [List.length_reverse]; omega, ?_, ?_, ?_, ?_,
    List.nodup_reverse.mpr hnd⟩
  · intro fuel hf
    unfold reconstruct
    rw [walk_chain _ _ _ _ c1 fuel [] (by simpa using hf)]
    rfl
  · intro fuel hf
    unfold reconstruct
    rw [walk_chain_running _ _ _ _ c1 fuel [] (by simpa using hf)]
  · rw [List.head?_reverse]; exact chain_getLast _ _ _ _ c1
  · obtain ⟨t, rfl⟩ := chain_head _ _ _ _ c1
    simp

/-- Witness of C17 (amended) on the graph of `main` with source 0. -/
theorem walk_terminates_without_repetition_witness :
    NonNegative main_graph ∧ Unsaturated main_graph 0 ∧ 0 < num_vertices main_graph ∧
    ∃ d p, solve main_graph 0 = Outcome.ok (d, p) ∧
      ∀ goal, Reachable main_graph 0 goal →
        ∃ path,
          path.length ≤ num_vertices main_graph
          ∧ (∀ fuel, path.length ≤ fuel + 1 →
              reconstruct p 0 goal fuel = WalkResult.finished path)
          ∧ (∀ fuel, fuel + 1 < path.length →
              reconstruct p 0 goal fuel = WalkResult.running)
          ∧ path.head? = some 0 ∧ path.getLast? = some goal ∧ path.Nodup :=
  ⟨nonNegative_main_graph, unsaturated_main_graph, by decide,
    walk_terminates_without_repetition edge_array weights_v num_nodes 0 nonNegative_main_graph
      unsaturated_main_graph (by decide)⟩

/-- C17 as stated fails: on the graph with the single edge (0,1) of weight
2147483647 the goal 1 is reachable from the source 0, but predecessor[1] = 1
and the walk from 1 is still running after any number of iterations. -/
theorem walk_does_not_terminate :
    NonNegative (adjacency_list [(0, 1)] [2147483647] 2)
    ∧ Reachable (adjacency_list [(0, 1)] [2147483647] 2) 0 1
    ∧ ∃ d p, solve (adjacency_list [(0, 1)] [2147483647] 2) 0 = Outcome.ok (d, p)
      ∧ ∀ fuel, reconstruct p 0 1 fuel = WalkResult.running := by
  refine ⟨nonNegative_heavy, reachable_heavy, [0, 2147483647], [0, 1], by decide, ?_⟩
  intro fuel
  unfold reconstruct
  rw [walk_self_loop _ 0 1 (by decide) (by decide) fuel []]

/-! ## The constructor on `int` data -/

theorem to_vertex_eq_some (x : Int) (u : Nat) : to_vertex x = some u ↔ 0 ≤ x ∧ u = x.toNat := by
  unfold to_vertex
  by_cases h : 0 ≤ x
  · rw [if_pos h]
    simp only [Option.some.injEq, h, true_and]
    exact eq_comm
  · rw [if_neg h]
    simp [h]

theorem to_edges_eq_some (ea : List (Int × Int)) (r : List (Nat × Nat)) :
    to_edges ea = some r ↔
      (∀ e ∈ ea, 0 ≤ e.1 ∧ 0 ≤ e.2) ∧ r = ea.map (fun e => (e.1.toNat, e.2.toNat)) := by
  induction ea generalizing r with
  | nil => simp [to_edges, eq_comm]
  | cons e es ih =>
    unfold to_edges
    cases h1 : to_vertex e.1 with
    | none =>
      have : ¬ 0 ≤ e.1 := by
        intro h
        have := (to_vertex_eq_some e.1 e.1.toNat).2 ⟨h, rfl⟩
        rw [h1] at this
        simp at this
      simp [this]
    | some u =>
      obtain ⟨hu0, hu⟩ := (to_vertex_eq_some e.1 u).1 h1
      cases h2 : to_vertex e.2 with
      | none =>
        have : ¬ 0 ≤ e.2 := by
          intro h
          have := (to_vertex_eq_some e.2 e.2.toNat).2 ⟨h, rfl⟩
          rw [h2] at this
          simp at this
        simp [this]
      | some v =>
        obtain ⟨hv0, hv⟩ := (to_vertex_eq_some e.2 v).1 h2
        cases h3 : to_edges es with
        | none =>
          simp only [reduceCtorEq, false_iff, not_and]
          intro hall hr
          have := (ih (es.map (fun e => (e.1.toNat, e.2.toNat)))).2
            ⟨fun e2 he2 => hall e2 (List.mem_cons_of_mem _ he2), rfl⟩
          rw [h3] at this
          simp at this
        | some r2 =>
          obtain ⟨k1, k2⟩ := (ih r2).1 h3
          simp only [Option.some.injEq, List.mem_cons, forall_eq_or_imp, List.map_cons]
          subst hu hv k2
          constructor
          · intro h
            exact ⟨⟨⟨hu0, hv0⟩, k1⟩, h.symm⟩
          · intro h
            exact h.2.symm

theorem foldl_zip_fst {α β γ : Type} (F : γ → α → γ) :
    ∀ (l : List α) (ws : List β) (m : γ), l.length ≤ ws.length →
      (l.zip ws).foldl (fun m e => F m e.1) m = l.foldl F m := by
  intro l
  induction l with
  | nil => intro ws m _; simp
  | cons a l ih =>
    intro ws m h
    cases ws with
    | nil => simp at h
    | cons w ws =>
      simp only [List.zip_cons_cons, List.foldl_cons]
      exact ih ws _ (by simpa using h)

/-- When the declaration of the graph is defined, its result is the
constructor on the converted arguments. -/
theorem graph_t_eq_built (ea : List (Int × Int)) (ws : List Int) (n : Int) (g : Graph) :
    graph_t ea ws n = Construction.built g ↔
      (0 ≤ n ∧ (∀ e ∈ ea, 0 ≤ e.1 ∧ 0 ≤ e.2) ∧ ea.length ≤ ws.length)
      ∧ g = adjacency_list (ea.map (fun e => (e.1.toNat, e.2.toNat))) ws n.toNat := by
  unfold graph_t
  cases h1 : to_vertex n with
  | none =>
    have : ¬ 0 ≤ n := by
      intro h
      have := (to_vertex_eq_some n n.toNat).2 ⟨h, rfl⟩
      rw [h1] at this
      simp at this
    simp [this]
  | some n2 =>
    obtain ⟨hn0, hn⟩ := (to_vertex_eq_some n n2).1 h1
    cases h2 : to_edges ea with
    | none =>
      simp only [reduceCtorEq, false_iff, not_and]
      rintro ⟨_, hall, _⟩
      have := (to_edges_eq_some ea _).2 ⟨hall, rfl⟩
      rw [h2] at this
      simp at this
    | some r =>
      obtain ⟨k1, k2⟩ := (to_edges_eq_some ea r).1 h2
      subst hn k2
      simp only
      by_cases hl : ws.length < (ea.map (fun e => (e.1.toNat, e.2.toNat))).length
      · rw [if_pos hl]
        simp only [List.length_map] at hl
        simp only [reduceCtorEq, false_iff, not_and]
        rintro ⟨_, _, h3⟩
        omega
      · rw [if_neg hl]
        simp only [List.length_map] at hl
        simp only [Construction.built.injEq]
        constructor
        · intro h
          exact ⟨⟨hn0, k1, by omega⟩, h.symm⟩
        · intro h
          exact h.2.symm

/-- C11 (amended): graph construction has no `InvalidEdge` or `NegativeWeight`
failure and validates nothing. The declaration of the graph is defined exactly
when the vertex count and every endpoint are non-negative and there is a
weight for every edge; whenever it is defined it returns the graph that holds
every input edge with its weight and no other edge, endpoints at or beyond the
vertex count and negative weights included, on a vertex set enlarged to hold
every endpoint. A negative weight is rejected only by the solver: from a
source `s` it throws `negative_edge` exactly when an edge of negative weight
leaves a vertex reachable from `s`, and returns distances and predecessors
otherwise. -/
theorem construction_validates_nothing (ea : List (Int × Int)) (ws : List Int) (n : Int) :
    (graph_t ea ws n ≠ Construction.undefined ↔
        0 ≤ n ∧ (∀ e ∈ ea, 0 ≤ e.1 ∧ 0 ≤ e.2) ∧ ea.length ≤ ws.length)
    ∧ ∀ g, graph_t ea ws n = Construction.built g →
        (∀ (i : Nat) (e : Int × Int), ea[i]? = some e →
            ∃ w, ws[i]? = some w ∧ (e.1.toNat, e.2.toNat, w) ∈ edges g)
        ∧ (∀ (u v : Nat) (w : Int), (u, v, w) ∈ edges g →
            ∃ i : Nat, ea[i]? = some ((u : Int), (v : Int)) ∧ ws[i]? = some w)
        ∧ num_vertices g = ea.foldl (fun m e => max m (max e.1.toNat e.2.toNat + 1)) n.toNat
        ∧ ∀ s, s < num_vertices g →
            (solve g s = Outcome.negative_edge ↔
              ∃ u v w, (u, v, w) ∈ edges g ∧ w < 0 ∧ Reachable g s u)
            ∧ ((¬ ∃ u v w, (u, v, w) ∈ edges g ∧ w < 0 ∧ Reachable g s u) →
                ∃ d p, solve g s = Outcome.ok (d, p)) := by
  constructor
  · constructor
    · intro h
      cases hg : graph_t ea ws n with
      | built g => exact ((graph_t_eq_built ea ws n g).1 hg).1
      | undefined => exact absurd hg h
    · intro h hu
      have := (graph_t_eq_built ea ws n _).2 ⟨h, rfl⟩
      rw [hu] at this
      simp at this
  · intro g hg
    obtain ⟨⟨hn, hall, hlen⟩, rfl⟩ := (graph_t_eq_built ea ws n g).1 hg
    refine ⟨?_, ?_, ?_, ?_⟩
    · intro i e hi
      have hlt : i < ea.length := by
        by_contra hge
        rw [List.getElem?_eq_none (by omega)] at hi
        simp at hi
      have hw : ws[i]? = some (ws[i]) := List.getElem?_eq_getElem (by omega)
      refine ⟨ws[i], hw, ?_⟩
      rw [mem_edges_adjacency_list, List.mem_iff_getElem?]
      refine ⟨i, ?_⟩
      rw [List.getElem?_zip_eq_some]
      exact ⟨by simp [List.getElem?_map, hi], hw⟩
    · intro u v w he
      rw [mem_edges_adjacency_list, List.mem_iff_getElem?] at he
      obtain ⟨i, hi⟩ := he
      rw [List.getElem?_zip_eq_some] at hi
      obtain ⟨h1, h2⟩ := hi
      simp only [List.getElem?_map, Option.map_eq_some'] at h1
      obtain ⟨e, h3, h4⟩ := h1
      simp only [Prod.mk.injEq] at h4
      have he0 := hall e (List.mem_iff_getElem?.2 ⟨i, h3⟩)
      have h2b : ws[i]? = some w := h2
      refine ⟨i, ?_, h2b⟩
      rw [h3]
      obtain ⟨a, b⟩ := e
      simp only at h4 he0
      simp only [Option.some.injEq, Prod.mk.injEq]
      omega
    · rw [adjacency_list, num_vertices_foldl]
      have h1 := foldl_zip_fst (fun (m : Nat) (e : Nat × Nat) => max m (max e.1 e.2 + 1))
        (ea.map (fun e => (e.1.toNat, e.2.toNat))) ws
        (num_vertices ⟨List.replicate n.toNat []⟩) (by simpa using hlen)
      rw [h1, List.foldl_map]
      simp [num_vertices]
    · intro s hs
      exact solve_outcome _ s (wellFormed_adjacency_list _ ws n.toNat) hs

/-- The declaration of line 63 on the data of `main` is defined and gives the
graph of `main`. -/
theorem graph_t_main :
    graph_t [(0, 3), (2, 5), (3, 4), (4, 5), (5, 2)] weights_v 6
      = Construction.built main_graph := by
  decide

/-- C11 as stated fails: with vertex count 2 the edge (0,7) is accepted and
the vertex set grows to 8 vertices; the edge (0,1) of weight -1 is accepted
into the graph and the failure comes only from the solver; and the edge (1,0)
of weight -1, which the source 0 does not reach, is never rejected at all. -/
theorem construction_enlarges_and_accepts :
    (∃ g, graph_t [(0, 7)] [1] 2 = Construction.built g
      ∧ num_vertices g = 8 ∧ (0, 7, 1) ∈ edges g)
    ∧ (∃ g, graph_t [(0, 1)] [-1] 2 = Construction.built g
      ∧ num_vertices g = 2 ∧ (0, 1, -1) ∈ edges g
      ∧ solve g 0 = Outcome.negative_edge)
    ∧ (∃ g, graph_t [(1, 0)] [-1] 2 = Construction.built g
      ∧ (1, 0, -1) ∈ edges g
      ∧ solve g 0 = Outcome.ok ([0, 2147483647], [0, 1])) :=
  ⟨⟨adjacency_list [(0, 7)] [1] 2, by decide, by decide, by decide⟩,
   ⟨adjacency_list [(0, 1)] [-1] 2, by decide, by decide, by decide, by decide⟩,
   ⟨adjacency_list [(1, 0)] [-1] 2, by decide, by decide, by decide⟩⟩

end DijkstraGridmap
